import Mathlib

/-!
# fourq: the quadratic extension field `gfP2` (src/gfp2.go)

A shallow embedding of `gfp2.go`.  An element `x + y·i` (`i² = -1`) is a pair of
base-field elements.  Every Go method `func (e *gfP2) M(args) *gfP2` that
overwrites both components of its receiver becomes a function from the values
of its operands to the value the receiver holds afterwards; the scratch
elements taken from the pool become `let` bindings, in the order of the source.
Methods that can leave the receiver untouched (`SetBytes`) or that only read it
(`Bytes`) take the receiver's value and return it next to their result.

The base field (`baseFieldElem`), its prime and its byte encoding are not part
of `gfp2.go`; they are parameters of the development.

For in-place calls and for the element pool the methods are executed a second
time in an explicit memory (`Heap`): elements are addressed by handles, a
receiver may be the same element as an operand, and every `Get` and `Put` on the
pool is logged.  The in-memory functions (`MulH`, `SquareH`, `InvertH`, `ExpH`)
are shown to compute what the value-level functions compute.
-/

/-! ## The base field -/

/-- Modelled from the spec: the type `baseFieldElem` is declared outside
`gfp2.go`.  The spec describes it as an element of the prime field GF(p); the
modulus `p` is a parameter. -/
abbrev baseFieldElem (p : ℕ) : Type := ZMod p

namespace baseFieldElem

variable {p : ℕ}

/-- Modelled from the spec: `baseFieldElem.Set`, the value copy `e := a`. -/
def Set (a : baseFieldElem p) : baseFieldElem p := a

/-- Modelled from the spec: `baseFieldElem.SetZero`. -/
def SetZero : baseFieldElem p := 0

/-- Modelled from the spec: `baseFieldElem.SetOne`. -/
def SetOne : baseFieldElem p := 1

/-- Modelled from the spec: `baseFieldElem.IsZero`. -/
def IsZero (a : baseFieldElem p) : Bool := decide (a = 0)

/-- Modelled from the spec: `baseFieldElem.Neg`, negation in GF(p). -/
def Neg (a : baseFieldElem p) : baseFieldElem p := -a

/-- Modelled from the spec: `baseFieldElem.Dbl`, doubling in GF(p). -/
def Dbl (a : baseFieldElem p) : baseFieldElem p := a + a

/-- Modelled from the spec: `baseFieldElem.Add`, addition in GF(p). -/
def Add (a b : baseFieldElem p) : baseFieldElem p := a + b

/-- Modelled from the spec: `baseFieldElem.Sub`, subtraction in GF(p). -/
def Sub (a b : baseFieldElem p) : baseFieldElem p := a - b

/-- Modelled from the spec: `baseFieldElem.Mul`, multiplication in GF(p). -/
def Mul (a b : baseFieldElem p) : baseFieldElem p := a * b

/-- Modelled from the spec: `baseFieldElem.Invert`, "fails when operand is
zero" and otherwise yields the multiplicative inverse.  The call `r.Invert(a)`
returns to its caller in both cases: the first component is what the receiver
holds afterwards, given that it held `r` before, and the second is whether the
call succeeded (the indication it returns).  A failed call leaves the receiver as
it was. -/
def Invert (r a : baseFieldElem p) : baseFieldElem p × Bool :=
  if a = 0 then (r, false) else (a⁻¹, true)

end baseFieldElem

/-- One byte of a Go `[]byte`. -/
abbrev Byte : Type := Fin 256

/-- Modelled from the spec: the base field's serialisation, declared outside
`gfp2.go`.  `Bytes a` is the slice `a.Bytes()` returns.  `SetBytes r buf` is the
value a base-field receiver holding `r` has after `SetBytes(buf)`; `gfP2.SetBytes`
discards what that call returns. -/
structure baseFieldCodec (p : ℕ) where
  Bytes : baseFieldElem p → List Byte
  SetBytes : baseFieldElem p → List Byte → baseFieldElem p

/-- The builtin `copy(dst, src)` of Go, as the contents of `dst` afterwards: the
first `min (len dst) (len src)` entries are taken from `src`. -/
def goCopy (dst src : List Byte) : List Byte :=
  src.take dst.length ++ dst.drop src.length

/-! ## The extension field -/

/-- The struct `gfP2` of gfp2.go: the value `x + y·i`. -/
@[ext]
structure gfP2 (p : ℕ) where
  x : baseFieldElem p
  y : baseFieldElem p
deriving DecidableEq

/-- A Go call returning a `*gfP2` that may be `nil`: `recv` is the value of the
receiver after the call, `ret` the value behind the returned pointer (`none`
for `nil`). -/
structure gfP2.Returned (p : ℕ) where
  recv : gfP2 p
  ret : Option (gfP2 p)

namespace gfP2

variable {p : ℕ}

/-- Method `func (e *gfP2) Bytes() []byte`: the returned slice, and the receiver
afterwards. -/
def Bytes (enc : baseFieldCodec p) (e : gfP2 p) : List Byte × gfP2 p :=
  let ret : List Byte := List.replicate 32 0
  let ret := goCopy (ret.take 16) (enc.Bytes e.x) ++ ret.drop 16
  let ret := ret.take 16 ++ goCopy (ret.drop 16) (enc.Bytes e.y)
  (ret, e)

/-- Method `func (e *gfP2) Set(a *gfP2) *gfP2`. -/
def Set (a : gfP2 p) : gfP2 p :=
  { x := baseFieldElem.Set a.x, y := baseFieldElem.Set a.y }

/-- Method `func (e *gfP2) SetBytes(in []byte) *gfP2`. -/
def SetBytes (enc : baseFieldCodec p) (e : gfP2 p) (inp : List Byte) : Returned p :=
  if inp.length ≠ 32 then
    { recv := e, ret := none }
  else
    let e : gfP2 p := { e with x := enc.SetBytes e.x (inp.take 16) }
    let e : gfP2 p := { e with y := enc.SetBytes e.y (inp.drop 16) }
    { recv := e, ret := some e }

/-- Method `func (e *gfP2) SetZero() *gfP2`. -/
def SetZero : gfP2 p :=
  { x := baseFieldElem.SetZero, y := baseFieldElem.SetZero }

/-- Method `func (e *gfP2) SetOne() *gfP2`. -/
def SetOne : gfP2 p :=
  { x := baseFieldElem.SetOne, y := baseFieldElem.SetZero }

/-- Method `func (e *gfP2) IsZero() bool`. -/
def IsZero (e : gfP2 p) : Bool :=
  baseFieldElem.IsZero e.x && baseFieldElem.IsZero e.y

/-- Method `func (e *gfP2) Neg(a *gfP2) *gfP2`. -/
def Neg (a : gfP2 p) : gfP2 p :=
  { x := baseFieldElem.Neg a.x, y := baseFieldElem.Neg a.y }

/-- Method `func (e *gfP2) Dbl(a *gfP2) *gfP2`. -/
def Dbl (a : gfP2 p) : gfP2 p :=
  { x := baseFieldElem.Dbl a.x, y := baseFieldElem.Dbl a.y }

/-- Method `func (e *gfP2) Add(a, b *gfP2) *gfP2`. -/
def Add (a b : gfP2 p) : gfP2 p :=
  { x := baseFieldElem.Add a.x b.x, y := baseFieldElem.Add a.y b.y }

/-- Method `func (e *gfP2) Sub(a, b *gfP2) *gfP2`. -/
def Sub (a b : gfP2 p) : gfP2 p :=
  { x := baseFieldElem.Sub a.x b.x, y := baseFieldElem.Sub a.y b.y }

/-- Method `func (e *gfP2) Mul(a, b *gfP2, pool *elemPool) *gfP2`. -/
def Mul (a b : gfP2 p) : gfP2 p :=
  let tx := baseFieldElem.Mul a.x b.x
  let t := baseFieldElem.Mul a.y b.y
  let tx := baseFieldElem.Sub tx t
  let ty := baseFieldElem.Mul a.x b.y
  let t := baseFieldElem.Mul a.y b.x
  let ty := baseFieldElem.Add ty t
  { x := baseFieldElem.Set tx, y := baseFieldElem.Set ty }

/-- Method `func (e *gfP2) Square(a *gfP2, pool *elemPool) *gfP2`. -/
def Square (a : gfP2 p) : gfP2 p :=
  let t1 := baseFieldElem.Sub a.x a.y
  let t2 := baseFieldElem.Add a.x a.y
  let tx := baseFieldElem.Mul t1 t2
  let t1 := baseFieldElem.Mul a.x a.y
  let t1 := baseFieldElem.Dbl t1
  { x := baseFieldElem.Set tx, y := baseFieldElem.Set t1 }

/-- Method `func (e *gfP2) Invert(a *gfP2, pool *elemPool) *gfP2`: the value
behind the returned pointer (`none` would be `nil`; the source returns `e` on its
only path).  The argument `inv` is what the scratch element of that name holds
when the pool hands it out; the indication `inv.Invert(t)` returns is discarded,
as in the source. -/
def Invert (a : gfP2 p) (inv : baseFieldElem p) : Option (gfP2 p) :=
  let t := baseFieldElem.Mul a.x a.x
  let t2 := baseFieldElem.Mul a.y a.y
  let t := baseFieldElem.Add t t2
  let inv := (baseFieldElem.Invert inv t).1
  let ey := baseFieldElem.Neg a.y
  let ey := baseFieldElem.Mul ey inv
  let ex := baseFieldElem.Mul a.x inv
  some { x := ex, y := ey }

/-- The `for` loop of `Exp`: the first argument is `i + 1`, the number of
iterations left; the state is `sum` (`t` is overwritten by `Square` at the top
of every iteration before it is read). -/
def Exp.loop (a : gfP2 p) (power : ℤ) : ℕ → gfP2 p → gfP2 p
  | 0, sum => sum
  | i + 1, sum =>
    let t := Square sum
    let sum := if power.testBit i then Mul t a else Set t
    Exp.loop a power i sum

/-- Method `func (c *gfP2) Exp(a *gfP2, power *big.Int, pool *elemPool) *gfP2`.
`power.BitLen()` is the bit length of `|power|`; `power.Bit(i)` is bit `i` of
the two's-complement form. -/
def Exp (a : gfP2 p) (power : ℤ) : gfP2 p :=
  let sum : gfP2 p := SetOne
  let sum := Exp.loop a power power.natAbs.size sum
  Set sum

/-- The power `a^n` as the spec words it: `a^0 = One`, `a^(k+1) = Mul(a^k, a)`. -/
def powSpec (a : gfP2 p) : ℕ → gfP2 p
  | 0 => SetOne
  | k + 1 => Mul (powSpec a k) a

end gfP2

/-! ## Instances used to run the statements -/

/-- The FourQ base prime, a Mersenne prime. -/
def fourqP : ℕ := 2 ^ 127 - 1

instance fourqP_fact : Fact (Nat.Prime fourqP) :=
  ⟨lucas_lehmer_sufficiency 127 (by norm_num) (by norm_num)⟩

/-- A 16-byte little-endian encoding of the canonical representative, as an
instance of the base-field serialisation. -/
def leCodec (p : ℕ) : baseFieldCodec p where
  Bytes a := (List.range 16).map fun i => Fin.ofNat (a.val / 256 ^ i % 256)
  SetBytes _ buf := ((buf.foldr (fun b acc => b.val + 256 * acc) 0 : ℕ) : ZMod p)

/-- The buffer `0, 1, …, 31`. -/
def sampleBuf : List Byte := (List.range 32).map Fin.ofNat

/-! ## The element pool and in-place execution -/

/-- A `*baseFieldElem`: the address of one base-field element. -/
abbrev Handle : Type := ℕ

/-- A call on the element pool, as recorded in the heap's log. -/
inductive PoolEvent where
  | get (k : Handle)
  | put (k : Handle)
deriving DecidableEq

/-- The memory the methods of `gfp2.go` act on: the contents of every base-field
element, and the state of the `elemPool`.

Modelled from the spec: `elemPool` is declared outside `gfp2.go`; the spec gives
it `acquire` (a usable, not necessarily zeroed element) and `release` (the
element goes back to the pool for reuse).  Here the pool is a stack of free
handles, `next` is the first address never handed out, and `log` records every
`Get` and `Put`. -/
structure Heap (p : ℕ) where
  mem : Handle → baseFieldElem p
  pool : List Handle
  next : Handle
  log : List PoolEvent

namespace Heap

variable {p : ℕ}

/-- Overwrite the element at `k`. -/
def store (h : Heap p) (k : Handle) (v : baseFieldElem p) : Heap p :=
  { h with mem := Function.update h.mem k v }

/-- The handles `L` are live elements: below `next` and not in the pool, whose
free handles are pairwise distinct and below `next`. -/
def WF (h : Heap p) (L : List Handle) : Prop :=
  h.pool.Nodup ∧ (∀ k ∈ h.pool, k < h.next) ∧ (∀ k ∈ L, k < h.next ∧ k ∉ h.pool)

instance (h : Heap p) (L : List Handle) : Decidable (h.WF L) := by
  unfold WF; infer_instance

end Heap

namespace elemPool

variable {p : ℕ}

/-- Modelled from the spec: `pool.Get()`, a free handle if there is one and a
fresh element otherwise; its contents are whatever the memory holds there. -/
def Get (h : Heap p) : Handle × Heap p :=
  match h.pool with
  | k :: rest => (k, { h with pool := rest, log := h.log ++ [PoolEvent.get k] })
  | [] => (h.next, { h with next := h.next + 1, log := h.log ++ [PoolEvent.get h.next] })

/-- Modelled from the spec: `pool.Put(k)`. -/
def Put (h : Heap p) (k : Handle) : Heap p :=
  { h with pool := k :: h.pool, log := h.log ++ [PoolEvent.put k] }

end elemPool

/-- A `*gfP2`: the two element addresses of the struct it points to. -/
structure gfP2.Ref where
  x : Handle
  y : Handle
deriving DecidableEq

namespace gfP2

variable {p : ℕ}

/-- The value `x + y·i` of the element at `r`. -/
def val (h : Heap p) (r : Ref) : gfP2 p :=
  { x := h.mem r.x, y := h.mem r.y }

/-- Method `Mul` executed in memory: receiver `e`, operands `a` and `b`, which may be
the same element. -/
def MulH (e a b : Ref) (h : Heap p) : Heap p :=
  let (tx, h) := elemPool.Get h
  let h := h.store tx (baseFieldElem.Mul (h.mem a.x) (h.mem b.x))
  let (t, h) := elemPool.Get h
  let h := h.store t (baseFieldElem.Mul (h.mem a.y) (h.mem b.y))
  let h := h.store tx (baseFieldElem.Sub (h.mem tx) (h.mem t))
  let (ty, h) := elemPool.Get h
  let h := h.store ty (baseFieldElem.Mul (h.mem a.x) (h.mem b.y))
  let h := h.store t (baseFieldElem.Mul (h.mem a.y) (h.mem b.x))
  let h := h.store ty (baseFieldElem.Add (h.mem ty) (h.mem t))
  let h := h.store e.x (baseFieldElem.Set (h.mem tx))
  let h := h.store e.y (baseFieldElem.Set (h.mem ty))
  let h := elemPool.Put h tx
  let h := elemPool.Put h ty
  let h := elemPool.Put h t
  h

/-- Method `Square` executed in memory: receiver `e`, operand `a`. -/
def SquareH (e a : Ref) (h : Heap p) : Heap p :=
  let (t1, h) := elemPool.Get h
  let h := h.store t1 (baseFieldElem.Sub (h.mem a.x) (h.mem a.y))
  let (t2, h) := elemPool.Get h
  let h := h.store t2 (baseFieldElem.Add (h.mem a.x) (h.mem a.y))
  let (tx, h) := elemPool.Get h
  let h := h.store tx (baseFieldElem.Mul (h.mem t1) (h.mem t2))
  let h := h.store t1 (baseFieldElem.Mul (h.mem a.x) (h.mem a.y))
  let h := h.store t1 (baseFieldElem.Dbl (h.mem t1))
  let h := h.store e.x (baseFieldElem.Set (h.mem tx))
  let h := h.store e.y (baseFieldElem.Set (h.mem t1))
  let h := elemPool.Put h t1
  let h := elemPool.Put h t2
  let h := elemPool.Put h tx
  h

/-- Method `Invert` executed in memory: receiver `e`, operand `a`. -/
def InvertH (e a : Ref) (h : Heap p) : Heap p :=
  let (t, h) := elemPool.Get h
  let h := h.store t (baseFieldElem.Mul (h.mem a.x) (h.mem a.x))
  let (t2, h) := elemPool.Get h
  let h := h.store t2 (baseFieldElem.Mul (h.mem a.y) (h.mem a.y))
  let h := h.store t (baseFieldElem.Add (h.mem t) (h.mem t2))
  let (inv, h) := elemPool.Get h
  let h := h.store inv (baseFieldElem.Invert (h.mem inv) (h.mem t)).1
  let h := h.store e.y (baseFieldElem.Neg (h.mem a.y))
  let h := h.store e.y (baseFieldElem.Mul (h.mem e.y) (h.mem inv))
  let h := h.store e.x (baseFieldElem.Mul (h.mem a.x) (h.mem inv))
  let h := elemPool.Put h t
  let h := elemPool.Put h t2
  let h := elemPool.Put h inv
  h

/-- The function `newGFp2`: the new element's handles, and the memory afterwards. -/
def newGFp2H (h : Heap p) : Ref × Heap p :=
  let (x, h) := elemPool.Get h
  let (y, h) := elemPool.Get h
  ({ x := x, y := y }, h)

/-- Method `Put` of a `gfP2` executed in memory. -/
def PutH (e : Ref) (h : Heap p) : Heap p :=
  let h := elemPool.Put h e.x
  let h := elemPool.Put h e.y
  h

/-- Method `Set` executed in memory. -/
def SetH (e a : Ref) (h : Heap p) : Heap p :=
  let h := h.store e.x (baseFieldElem.Set (h.mem a.x))
  let h := h.store e.y (baseFieldElem.Set (h.mem a.y))
  h

/-- Method `SetOne` executed in memory. -/
def SetOneH (e : Ref) (h : Heap p) : Heap p :=
  let h := h.store e.x baseFieldElem.SetOne
  let h := h.store e.y baseFieldElem.SetZero
  h

/-- The `for` loop of `Exp` executed in memory, with `i + 1` iterations left. -/
def ExpH.loop (a sum t : Ref) (power : ℤ) : ℕ → Heap p → Heap p
  | 0, h => h
  | i + 1, h =>
    let h := SquareH t sum h
    let h := if power.testBit i then MulH sum t a h else SetH sum t h
    ExpH.loop a sum t power i h

/-- Method `Exp` executed in memory: receiver `c`, operand `a`. -/
def ExpH (c a : Ref) (power : ℤ) (h : Heap p) : Heap p :=
  let (sum, h) := newGFp2H h
  let h := SetOneH sum h
  let (t, h) := newGFp2H h
  let h := ExpH.loop a sum t power power.natAbs.size h
  let h := SetH c sum h
  let h := PutH sum h
  let h := PutH t h
  h

/-- The `for` loop of `Exp` with a count of the calls it makes: the state is
`sum`, the number of calls to `Square` and the number of calls to `Mul`. -/
def Exp.loopCalls (a : gfP2 p) (power : ℤ) : ℕ → gfP2 p × ℕ × ℕ → gfP2 p × ℕ × ℕ
  | 0, st => st
  | i + 1, (sum, squares, muls) =>
    let t := Square sum
    let squares := squares + 1
    if power.testBit i then
      Exp.loopCalls a power i (Mul t a, squares, muls + 1)
    else
      Exp.loopCalls a power i (Set t, squares, muls)

/-- Method `Exp` with the count of its calls to `Square` and to `Mul`. -/
def ExpCalls (a : gfP2 p) (power : ℤ) : gfP2 p × ℕ × ℕ :=
  let st := Exp.loopCalls a power power.natAbs.size (SetOne, 0, 0)
  (Set st.1, st.2.1, st.2.2)

end gfP2

/-- The number of set bits of `n` among its `bitLength` lowest bits. -/
def setBits (n : ℕ) : ℕ :=
  ((List.range n.size).filter fun i => n.testBit i).length

/-! ### Reading the pool log -/

/-- Follows the handle `k` through a log, from `held` (whether `k` is out of the
pool on behalf of the call): a `Get` of a handle that is already held, or a
`Put` of one that is not, is an error (`none`). -/
def heldAfter (k : Handle) : Bool → List PoolEvent → Option Bool
  | held, [] => some held
  | held, PoolEvent.get j :: evs =>
    if j = k then (if held then none else heldAfter k true evs) else heldAfter k held evs
  | held, PoolEvent.put j :: evs =>
    if j = k then (if held then heldAfter k false evs else none) else heldAfter k held evs

/-- The number of handles taken from the pool minus the number given back. -/
def outstanding : List PoolEvent → ℤ
  | [] => 0
  | PoolEvent.get _ :: evs => outstanding evs + 1
  | PoolEvent.put _ :: evs => outstanding evs - 1

/-- The pool discipline of a call whose receiver and operands have the handles
`L`: every handle the call acquires is released exactly once and nothing else is
released, as many handles are outside the pool afterwards as before, and no
handle of `L` is acquired or released. -/
def Scratch (L : List Handle) (evs : List PoolEvent) : Prop :=
  (∀ k, heldAfter k false evs = some false) ∧
  outstanding evs = 0 ∧
  ∀ k ∈ L, PoolEvent.get k ∉ evs ∧ PoolEvent.put k ∉ evs

/-- A memory at the FourQ prime: `3 + 5i` at handles 0 and 1, `7 + 2i` at 2 and 3,
the zero element at 4 and 5; two free handles in the pool. -/
def sampleHeap : Heap fourqP where
  mem := fun k => if k = 0 then 3 else if k = 1 then 5 else if k = 2 then 7
    else if k = 3 then 2 else 0
  pool := [7, 6]
  next := 8
  log := []

/-! ## Auxiliary facts -/

section Aux

variable {p : ℕ}

theorem gfP2.Set_eq (a : gfP2 p) : gfP2.Set a = a := rfl

theorem gfP2.Mul_x (a b : gfP2 p) : (gfP2.Mul a b).x = a.x * b.x - a.y * b.y := rfl

theorem gfP2.Mul_y (a b : gfP2 p) : (gfP2.Mul a b).y = a.x * b.y + a.y * b.x := rfl

theorem gfP2.Mul_comm_aux (a b : gfP2 p) : gfP2.Mul a b = gfP2.Mul b a := by
  ext
  · rw [gfP2.Mul_x, gfP2.Mul_x]; ring
  · rw [gfP2.Mul_y, gfP2.Mul_y]; ring

theorem gfP2.Mul_assoc_aux (a b c : gfP2 p) :
    gfP2.Mul (gfP2.Mul a b) c = gfP2.Mul a (gfP2.Mul b c) := by
  ext
  · simp only [gfP2.Mul_x, gfP2.Mul_y]; ring
  · simp only [gfP2.Mul_x, gfP2.Mul_y]; ring

theorem gfP2.Mul_SetOne_aux (a : gfP2 p) : gfP2.Mul a gfP2.SetOne = a := by
  ext
  · simp [gfP2.Mul_x, gfP2.SetOne, baseFieldElem.SetOne, baseFieldElem.SetZero]
  · simp [gfP2.Mul_y, gfP2.SetOne, baseFieldElem.SetOne, baseFieldElem.SetZero]

theorem gfP2.SetOne_Mul_aux (a : gfP2 p) : gfP2.Mul gfP2.SetOne a = a := by
  rw [gfP2.Mul_comm_aux, gfP2.Mul_SetOne_aux]

theorem gfP2.Square_eq_Mul_aux (a : gfP2 p) : gfP2.Square a = gfP2.Mul a a := by
  ext
  · simp only [gfP2.Square, gfP2.Mul_x, baseFieldElem.Sub, baseFieldElem.Add,
      baseFieldElem.Mul, baseFieldElem.Set]
    ring
  · simp only [gfP2.Square, gfP2.Mul_y, baseFieldElem.Dbl, baseFieldElem.Mul,
      baseFieldElem.Set]
    ring

theorem gfP2.powSpec_add (a : gfP2 p) (m n : ℕ) :
    gfP2.powSpec a (m + n) = gfP2.Mul (gfP2.powSpec a m) (gfP2.powSpec a n) := by
  induction n with
  | zero => simp [gfP2.powSpec, gfP2.Mul_SetOne_aux]
  | succ k ih =>
    rw [← Nat.add_assoc]
    simp only [gfP2.powSpec]
    rw [ih, gfP2.Mul_assoc_aux]

theorem gfP2.powSpec_one (a : gfP2 p) : gfP2.powSpec a 1 = a := by
  simp [gfP2.powSpec, gfP2.SetOne_Mul_aux]

/-- Splitting off bit `i` of the low `i + 1` bits. -/
theorem mod_two_pow_succ_testBit (n i : ℕ) :
    n % 2 ^ (i + 1) = (if n.testBit i then 2 ^ i else 0) + n % 2 ^ i := by
  rw [Nat.mod_pow_succ, Nat.testBit_to_div_mod]
  rcases Nat.mod_two_eq_zero_or_one (n / 2 ^ i) with h | h <;> simp [h, Nat.add_comm]

/-- Loop invariant of `Exp`: entering the loop with `i` iterations left and
`sum = a^m`, it ends with `a^(m·2^i + (power mod 2^i))`. -/
theorem gfP2.Exp_loop_powSpec (a : gfP2 p) (n : ℕ) :
    ∀ i m : ℕ, gfP2.Exp.loop a (n : ℤ) i (gfP2.powSpec a m)
      = gfP2.powSpec a (m * 2 ^ i + n % 2 ^ i) := by
  intro i
  induction i with
  | zero => intro m; simp [gfP2.Exp.loop, Nat.mod_one]
  | succ i ih =>
    intro m
    have hbit : (n : ℤ).testBit i = n.testBit i := rfl
    have hsq : gfP2.Square (gfP2.powSpec a m) = gfP2.powSpec a (m + m) := by
      rw [gfP2.Square_eq_Mul_aux, gfP2.powSpec_add]
    simp only [gfP2.Exp.loop, hbit, hsq, gfP2.Set_eq]
    rw [mod_two_pow_succ_testBit]
    cases hb : n.testBit i
    · have h := ih (m + m)
      simp only [Bool.false_eq_true, if_false] at h ⊢
      rw [h]; congr 1; ring
    · have h := ih (m + m + 1)
      simp only [if_true] at h ⊢
      rw [show gfP2.Mul (gfP2.powSpec a (m + m)) a = gfP2.powSpec a (m + m + 1) from rfl, h]
      congr 1; ring

theorem gfP2.Exp_eq_powSpec (a : gfP2 p) (n : ℕ) :
    gfP2.Exp a (n : ℤ) = gfP2.powSpec a n := by
  have h := gfP2.Exp_loop_powSpec a n n.size 0
  simp only [gfP2.powSpec] at h
  simp only [gfP2.Exp, gfP2.Set_eq, Int.natAbs_ofNat, h]
  rw [Nat.zero_mul, Nat.zero_add, Nat.mod_eq_of_lt (Nat.lt_size_self n)]

end Aux

section AuxInvert

variable {p : ℕ}

theorem gfP2.IsZero_eq_false_iff (a : gfP2 p) :
    gfP2.IsZero a = false ↔ ¬ (a.x = 0 ∧ a.y = 0) := by
  simp [gfP2.IsZero, baseFieldElem.IsZero]

/-- When `-1` is not a square in GF(p), the norm `x² + y²` vanishes only at `(0, 0)`. -/
theorem norm_ne_zero_aux [Fact p.Prime] (hneg : ¬ IsSquare (-1 : ZMod p))
    (x y : ZMod p) (h : ¬ (x = 0 ∧ y = 0)) : x * x + y * y ≠ 0 := by
  intro hN
  by_cases hy : y = 0
  · subst hy
    have hx : x = 0 := by simpa using hN
    exact h ⟨hx, rfl⟩
  · apply hneg
    refine ⟨x * y⁻¹, ?_⟩
    have h1 : x * x = -(y * y) := eq_neg_of_add_eq_zero_left hN
    have h2 : x * y⁻¹ * (x * y⁻¹) = x * x * (y⁻¹ * y⁻¹) := by ring
    rw [h2, h1]
    field_simp

theorem baseFieldElem.Invert_fst_of_ne {r a : baseFieldElem p} (h : a ≠ 0) :
    (baseFieldElem.Invert r a).1 = a⁻¹ := by
  simp [baseFieldElem.Invert, h]

/-- The value `Invert` computes, with `inv` what the scratch element holds after
the base-field inversion. -/
theorem gfP2.Invert_eq_aux (a : gfP2 p) (inv : baseFieldElem p) :
    gfP2.Invert a inv = some
      { x := a.x * (baseFieldElem.Invert inv (a.x * a.x + a.y * a.y)).1,
        y := -a.y * (baseFieldElem.Invert inv (a.x * a.x + a.y * a.y)).1 } := rfl

theorem gfP2.Invert_eq_some_aux (a : gfP2 p) (inv : baseFieldElem p)
    (h : a.x * a.x + a.y * a.y ≠ 0) :
    gfP2.Invert a inv = some
      { x := a.x * (a.x * a.x + a.y * a.y)⁻¹, y := -a.y * (a.x * a.x + a.y * a.y)⁻¹ } := by
  rw [gfP2.Invert_eq_aux, baseFieldElem.Invert_fst_of_ne h]

theorem gfP2.Invert_zero_aux (inv : baseFieldElem p) :
    gfP2.Invert (gfP2.SetZero : gfP2 p) inv = some gfP2.SetZero := by
  rw [gfP2.Invert_eq_aux]
  simp [gfP2.SetZero, baseFieldElem.SetZero]

theorem gfP2.Mul_Invert_aux [Fact p.Prime] (hneg : ¬ IsSquare (-1 : ZMod p))
    (a : gfP2 p) (inv : baseFieldElem p) (ha : gfP2.IsZero a = false) :
    ∃ b, gfP2.Invert a inv = some b ∧ gfP2.Mul a b = gfP2.SetOne := by
  have hN := norm_ne_zero_aux hneg a.x a.y ((gfP2.IsZero_eq_false_iff a).1 ha)
  refine ⟨_, gfP2.Invert_eq_some_aux a inv hN, ?_⟩
  have hinv : (a.x * a.x + a.y * a.y) * (a.x * a.x + a.y * a.y)⁻¹ = 1 :=
    mul_inv_cancel₀ hN
  ext
  · simp only [gfP2.Mul_x, gfP2.SetOne, baseFieldElem.SetOne]
    linear_combination hinv
  · simp only [gfP2.Mul_y, gfP2.SetOne, baseFieldElem.SetOne, baseFieldElem.SetZero]
    ring

/-- The condition on the base prime cannot be dropped: modulo 5, where
`-1 = 2²`, the nonzero element `1 + 2i` has norm `0`, and whatever the scratch
element holds, what `Invert` returns is not an inverse of it. -/
theorem gfP2.Invert_not_inverse_mod_five :
    gfP2.IsZero (⟨1, 2⟩ : gfP2 5) = false ∧
    ∀ inv : ZMod 5, (gfP2.Invert (⟨1, 2⟩ : gfP2 5) inv).map (gfP2.Mul ⟨1, 2⟩)
      ≠ some gfP2.SetOne := by
  decide

theorem fourqP_neg_one_not_square : ¬ IsSquare (-1 : ZMod fourqP) := by
  rw [ZMod.exists_sq_eq_neg_one_iff]
  decide

end AuxInvert

section AuxBytes

variable {p : ℕ}

theorem goCopy_of_length_eq (dst src : List Byte) (h : src.length = dst.length) :
    goCopy dst src = src := by
  unfold goCopy
  rw [← h, List.take_length, h, List.drop_length, List.append_nil]

theorem gfP2.Bytes_length_aux (enc : baseFieldCodec p) (e : gfP2 p) :
    (gfP2.Bytes enc e).1.length = 32 := by
  simp only [gfP2.Bytes, goCopy, List.length_append, List.length_take, List.length_drop,
    List.length_replicate]
  omega

theorem gfP2.Bytes_eq_append_aux (enc : baseFieldCodec p) (e : gfP2 p)
    (hx : (enc.Bytes e.x).length = 16) (hy : (enc.Bytes e.y).length = 16) :
    (gfP2.Bytes enc e).1 = enc.Bytes e.x ++ enc.Bytes e.y := by
  have h16 : ∀ l : List Byte, l.length = 16 →
      goCopy (List.replicate 16 0) l = l := fun l hl =>
    goCopy_of_length_eq _ l (by simp [hl])
  have hrep : List.take 16 (List.replicate 32 (0 : Byte)) = List.replicate 16 0 := by decide
  have hrep2 : List.drop 16 (List.replicate 32 (0 : Byte)) = List.replicate 16 0 := by decide
  simp only [gfP2.Bytes, hrep, hrep2, h16 _ hx]
  rw [List.take_left' hx, List.drop_left' hx, h16 _ hy]

theorem gfP2.SetBytes_ok_aux (enc : baseFieldCodec p) (e : gfP2 p) (buf : List Byte)
    (h : buf.length = 32) :
    gfP2.SetBytes enc e buf =
      { recv := { x := enc.SetBytes e.x (buf.take 16), y := enc.SetBytes e.y (buf.drop 16) },
        ret := some { x := enc.SetBytes e.x (buf.take 16),
                      y := enc.SetBytes e.y (buf.drop 16) } } := by
  simp [gfP2.SetBytes, h]

theorem gfP2.SetBytes_fail_aux (enc : baseFieldCodec p) (e : gfP2 p) (buf : List Byte)
    (h : buf.length ≠ 32) :
    gfP2.SetBytes enc e buf = { recv := e, ret := none } := by
  simp [gfP2.SetBytes, h]

end AuxBytes

/-! ## Multiplication, squaring, inversion -/

/-- C1: for all `a` and `b`, `Mul(a, b)` leaves the receiver holding
`x = a.x*b.x - a.y*b.y` and `y = a.x*b.y + a.y*b.x`, computed in the base field;
`Mul` of `(3, 5)` and `(7, 2)` is `(11, 41)` reduced modulo the base prime. -/
theorem gfP2_Mul_formula (p : ℕ) (a b : gfP2 p) :
    (gfP2.Mul a b).x = a.x * b.x - a.y * b.y ∧
    (gfP2.Mul a b).y = a.x * b.y + a.y * b.x ∧
    gfP2.Mul (⟨3, 5⟩ : gfP2 p) ⟨7, 2⟩ = ⟨((11 : ℕ) : ZMod p), ((41 : ℕ) : ZMod p)⟩ ∧
    (gfP2.Mul (⟨3, 5⟩ : gfP2 p) ⟨7, 2⟩).x.val = 11 % p ∧
    (gfP2.Mul (⟨3, 5⟩ : gfP2 p) ⟨7, 2⟩).y.val = 41 % p := by
  have hx : (gfP2.Mul (⟨3, 5⟩ : gfP2 p) ⟨7, 2⟩).x = ((11 : ℕ) : ZMod p) := by
    rw [gfP2.Mul_x]; push_cast; norm_num
  have hy : (gfP2.Mul (⟨3, 5⟩ : gfP2 p) ⟨7, 2⟩).y = ((41 : ℕ) : ZMod p) := by
    rw [gfP2.Mul_y]; push_cast; norm_num
  refine ⟨rfl, rfl, ?_, ?_, ?_⟩
  · ext
    · exact hx
    · exact hy
  · rw [hx, ZMod.val_natCast]
  · rw [hy, ZMod.val_natCast]

/-- C2: for every `a`, `Square(a)` equals `Mul(a, a)`; `Square` of `(3, 5)` is
`(-16, 30)` reduced modulo the base prime (at the FourQ prime: `(p - 16, 30)`). -/
theorem gfP2_Square_eq_Mul (p : ℕ) (a : gfP2 p) :
    gfP2.Square a = gfP2.Mul a a ∧
    gfP2.Square (⟨3, 5⟩ : gfP2 p) = ⟨((-16 : ℤ) : ZMod p), ((30 : ℤ) : ZMod p)⟩ ∧
    (gfP2.Square (⟨3, 5⟩ : gfP2 fourqP)).x.val = fourqP - 16 ∧
    (gfP2.Square (⟨3, 5⟩ : gfP2 fourqP)).y.val = 30 := by
  refine ⟨gfP2.Square_eq_Mul_aux a, ?_, by decide, by decide⟩
  rw [gfP2.Square_eq_Mul_aux]
  ext
  · rw [gfP2.Mul_x]; push_cast; norm_num
  · rw [gfP2.Mul_y]; push_cast; norm_num

/-- C3: over a base field GF(p) in which `-1` is not a square (the condition
under which `i² = -1` defines a field), for every nonzero `a` the call
`Invert(a)` returns an element and `Mul(a, Invert(a))` equals `One = (1, 0)`,
whatever the scratch element `inv` held before. -/
theorem gfP2_Mul_Invert (p : ℕ) [Fact p.Prime] (hneg : ¬ IsSquare (-1 : ZMod p))
    (a : gfP2 p) (inv : baseFieldElem p) (ha : gfP2.IsZero a = false) :
    (∃ b, gfP2.Invert a inv = some b ∧ gfP2.Mul a b = gfP2.SetOne) ∧
    gfP2.SetOne = (⟨1, 0⟩ : gfP2 p) :=
  ⟨gfP2.Mul_Invert_aux hneg a inv ha, rfl⟩

/-- C3 at the FourQ prime and `a = 3 + 5i`. -/
theorem gfP2_Mul_Invert_witness :
    ¬ IsSquare (-1 : ZMod fourqP) ∧ gfP2.IsZero (⟨3, 5⟩ : gfP2 fourqP) = false ∧
    (∃ b, gfP2.Invert (⟨3, 5⟩ : gfP2 fourqP) 9 = some b ∧ gfP2.Mul ⟨3, 5⟩ b = gfP2.SetOne) ∧
    gfP2.SetOne = (⟨1, 0⟩ : gfP2 fourqP) :=
  ⟨fourqP_neg_one_not_square, by decide,
    gfP2_Mul_Invert fourqP fourqP_neg_one_not_square ⟨3, 5⟩ 9 (by decide)⟩

/-- C4, as amended: `Invert` applied to the zero element `(0, 0)` does not fail.
The base-field inversion of the zero norm signals its failure, `Invert` discards
that indication and returns the receiver, which then holds `(0, 0)`, whatever the
scratch element `inv` held. -/
theorem gfP2_Invert_zero_returns_zero (p : ℕ) (inv : baseFieldElem p) :
    gfP2.Invert (gfP2.SetZero : gfP2 p) inv = some gfP2.SetZero ∧
    gfP2.Invert (⟨0, 0⟩ : gfP2 p) inv = some ⟨0, 0⟩ ∧
    (baseFieldElem.Invert inv (0 * 0 + 0 * 0 : baseFieldElem p)).2 = false :=
  ⟨gfP2.Invert_zero_aux inv, gfP2.Invert_zero_aux inv, by simp [baseFieldElem.Invert]⟩

/-- C4 as stated fails: at the FourQ prime, with the scratch element holding 7,
`Invert` of the zero element is not a failure but the element `(0, 0)`. -/
theorem gfP2_Invert_zero_does_not_fail :
    gfP2.Invert (gfP2.SetZero : gfP2 fourqP) 7 ≠ none ∧
    gfP2.Invert (gfP2.SetZero : gfP2 fourqP) 7 = some ⟨0, 0⟩ := by
  decide

/-! ## Exponentiation -/

/-- C5: for every `a` and every non-negative integer `n`, `Exp(a, n)` is `a^n`,
the `n`-fold product with `a^0 = One` and `a^(k+1) = Mul(a^k, a)`; in particular
`Exp(a, 0) = One` and `Exp(a, 1) = a`. -/
theorem gfP2_Exp_eq_pow (p : ℕ) (a : gfP2 p) (n : ℕ) :
    gfP2.Exp a (n : ℤ) = gfP2.powSpec a n ∧
    gfP2.Exp a 0 = gfP2.SetOne ∧
    gfP2.Exp a 1 = a := by
  refine ⟨gfP2.Exp_eq_powSpec a n, ?_, ?_⟩
  · exact gfP2.Exp_eq_powSpec a 0
  · have h := gfP2.Exp_eq_powSpec a 1
    rw [gfP2.powSpec_one] at h
    exact h

/-- C6: for every `a` and all non-negative integers `m` and `n`,
`Exp(a, m+n)` equals `Mul(Exp(a, m), Exp(a, n))`. -/
theorem gfP2_Exp_add (p : ℕ) (a : gfP2 p) (m n : ℕ) :
    gfP2.Exp a ((m : ℤ) + (n : ℤ)) = gfP2.Mul (gfP2.Exp a m) (gfP2.Exp a n) := by
  rw [← Nat.cast_add, gfP2.Exp_eq_powSpec, gfP2.Exp_eq_powSpec, gfP2.Exp_eq_powSpec,
    gfP2.powSpec_add]

/-! ## Serialisation -/

/-- C7: `SetBytes(buf)` returns `nil` if and only if the length of `buf` is not
exactly 32 (lengths 0, 16, 31 and 33 fail, length 32 returns the receiver), and
whenever it fails the receiver's `x` and `y` are left unchanged. -/
theorem gfP2_SetBytes_length_guard (p : ℕ) (enc : baseFieldCodec p) (e : gfP2 p)
    (buf : List Byte) :
    ((gfP2.SetBytes enc e buf).ret = none ↔ buf.length ≠ 32) ∧
    ((gfP2.SetBytes enc e buf).ret = none → (gfP2.SetBytes enc e buf).recv = e) ∧
    (buf.length = 0 ∨ buf.length = 16 ∨ buf.length = 31 ∨ buf.length = 33 →
      (gfP2.SetBytes enc e buf).ret = none) ∧
    (buf.length = 32 →
      (gfP2.SetBytes enc e buf).ret = some (gfP2.SetBytes enc e buf).recv) := by
  by_cases h : buf.length = 32
  · rw [gfP2.SetBytes_ok_aux enc e buf h]
    simp [h]
  · rw [gfP2.SetBytes_fail_aux enc e buf h]
    simp [h]

/-- C7 on a 31-byte buffer (fails, receiver `3 + 5i` unchanged) and on a 32-byte
buffer (returns the receiver). -/
theorem gfP2_SetBytes_length_guard_witness :
    (gfP2.SetBytes (leCodec fourqP) ⟨3, 5⟩ (List.replicate 31 7)).ret = none ∧
    (gfP2.SetBytes (leCodec fourqP) ⟨3, 5⟩ (List.replicate 31 7)).recv = ⟨3, 5⟩ ∧
    (gfP2.SetBytes (leCodec fourqP) ⟨3, 5⟩ (List.replicate 32 7)).ret =
      some (gfP2.SetBytes (leCodec fourqP) ⟨3, 5⟩ (List.replicate 32 7)).recv :=
  have h31 := gfP2_SetBytes_length_guard fourqP (leCodec fourqP) ⟨3, 5⟩ (List.replicate 31 7)
  have h32 := gfP2_SetBytes_length_guard fourqP (leCodec fourqP) ⟨3, 5⟩ (List.replicate 32 7)
  ⟨h31.2.2.1 (by decide), h31.2.1 (h31.2.2.1 (by decide)), h32.2.2.2 (by decide)⟩

/-- C8: for every 32-byte buffer `b` whose two 16-byte halves are encodings on
which the base field's `Bytes` undoes its `SetBytes`, `SetBytes(b)` returns an
element and `Bytes` of that element is exactly `b`. -/
theorem gfP2_Bytes_SetBytes_roundtrip (p : ℕ) (enc : baseFieldCodec p) (e : gfP2 p)
    (b : List Byte) (hlen : b.length = 32)
    (hx : enc.Bytes (enc.SetBytes e.x (b.take 16)) = b.take 16)
    (hy : enc.Bytes (enc.SetBytes e.y (b.drop 16)) = b.drop 16) :
    ∃ v, (gfP2.SetBytes enc e b).ret = some v ∧ (gfP2.Bytes enc v).1 = b := by
  refine ⟨_, by rw [gfP2.SetBytes_ok_aux enc e b hlen], ?_⟩
  rw [gfP2.Bytes_eq_append_aux]
  · simp only [hx, hy, List.take_append_drop]
  · simp only [hx, List.length_take, hlen]; rfl
  · simp only [hy, List.length_drop, hlen]

/-- C8 at the FourQ prime with the little-endian encoding, on the buffer
`0, 1, …, 31`. -/
theorem gfP2_Bytes_SetBytes_roundtrip_witness :
    sampleBuf.length = 32 ∧
    (leCodec fourqP).Bytes ((leCodec fourqP).SetBytes 3 (sampleBuf.take 16))
      = sampleBuf.take 16 ∧
    (leCodec fourqP).Bytes ((leCodec fourqP).SetBytes 5 (sampleBuf.drop 16))
      = sampleBuf.drop 16 ∧
    ∃ v, (gfP2.SetBytes (leCodec fourqP) ⟨3, 5⟩ sampleBuf).ret = some v ∧
      (gfP2.Bytes (leCodec fourqP) v).1 = sampleBuf :=
  ⟨by decide, by decide, by decide,
    gfP2_Bytes_SetBytes_roundtrip fourqP (leCodec fourqP) ⟨3, 5⟩ sampleBuf
      (by decide) (by decide) (by decide)⟩

/-- C9: `Bytes` always returns a slice of exactly 32 bytes and leaves the element
unchanged; when the base field's encodings of `x` and `y` are 16 bytes long,
bytes 0..15 are the encoding of `x` and bytes 16..31 the encoding of `y`. -/
theorem gfP2_Bytes_layout (p : ℕ) (enc : baseFieldCodec p) (e : gfP2 p)
    (hx : (enc.Bytes e.x).length = 16) (hy : (enc.Bytes e.y).length = 16) :
    (gfP2.Bytes enc e).1.length = 32 ∧
    (gfP2.Bytes enc e).1.take 16 = enc.Bytes e.x ∧
    (gfP2.Bytes enc e).1.drop 16 = enc.Bytes e.y ∧
    (gfP2.Bytes enc e).2 = e := by
  refine ⟨gfP2.Bytes_length_aux enc e, ?_, ?_, rfl⟩
  · rw [gfP2.Bytes_eq_append_aux enc e hx hy, List.take_left' hx]
  · rw [gfP2.Bytes_eq_append_aux enc e hx hy, List.drop_left' hx]

/-- C9 at the FourQ prime with the little-endian encoding, on `3 + 5i`. -/
theorem gfP2_Bytes_layout_witness :
    ((leCodec fourqP).Bytes 3).length = 16 ∧ ((leCodec fourqP).Bytes 5).length = 16 ∧
    (gfP2.Bytes (leCodec fourqP) ⟨3, 5⟩).1.length = 32 ∧
    (gfP2.Bytes (leCodec fourqP) ⟨3, 5⟩).1.take 16 = (leCodec fourqP).Bytes 3 ∧
    (gfP2.Bytes (leCodec fourqP) ⟨3, 5⟩).1.drop 16 = (leCodec fourqP).Bytes 5 ∧
    (gfP2.Bytes (leCodec fourqP) ⟨3, 5⟩).2 = ⟨3, 5⟩ :=
  ⟨by decide, by decide,
    gfP2_Bytes_layout fourqP (leCodec fourqP) ⟨3, 5⟩ (by decide) (by decide)⟩

/-! ## Algebraic laws of `Mul` -/

/-- C10: `Mul` is commutative and associative: `Mul(a, b) = Mul(b, a)` and
`Mul(Mul(a, b), c) = Mul(a, Mul(b, c))` for all `a`, `b`, `c`. -/
theorem gfP2_Mul_comm_assoc (p : ℕ) (a b c : gfP2 p) :
    gfP2.Mul a b = gfP2.Mul b a ∧
    gfP2.Mul (gfP2.Mul a b) c = gfP2.Mul a (gfP2.Mul b c) :=
  ⟨gfP2.Mul_comm_aux a b, gfP2.Mul_assoc_aux a b c⟩

/-! ## Auxiliary facts: memory, pool and log -/

section AuxHeap
variable {p : ℕ}

@[simp]
theorem Heap.store_mem (h : Heap p) (k : Handle) (v : baseFieldElem p) :
    (h.store k v).mem = Function.update h.mem k v := rfl
@[simp]
theorem Heap.store_pool (h : Heap p) (k : Handle) (v : baseFieldElem p) :
    (h.store k v).pool = h.pool := rfl
@[simp]
theorem Heap.store_next (h : Heap p) (k : Handle) (v : baseFieldElem p) :
    (h.store k v).next = h.next := rfl
@[simp]
theorem Heap.store_log (h : Heap p) (k : Handle) (v : baseFieldElem p) :
    (h.store k v).log = h.log := rfl
@[simp]
theorem elemPool.Put_mem (h : Heap p) (k : Handle) : (elemPool.Put h k).mem = h.mem := rfl
@[simp]
theorem elemPool.Put_pool (h : Heap p) (k : Handle) :
    (elemPool.Put h k).pool = k :: h.pool := rfl
@[simp]
theorem elemPool.Put_next (h : Heap p) (k : Handle) : (elemPool.Put h k).next = h.next := rfl
@[simp]
theorem elemPool.Put_log (h : Heap p) (k : Handle) :
    (elemPool.Put h k).log = h.log ++ [PoolEvent.put k] := rfl

theorem elemPool.Get_store (h : Heap p) (k : Handle) (v : baseFieldElem p) :
    elemPool.Get (h.store k v) = ((elemPool.Get h).1, (elemPool.Get h).2.store k v) := by
  unfold elemPool.Get Heap.store
  cases h.pool <;> rfl

theorem elemPool.Get_spec {h h' : Heap p} {L : List Handle} {k : Handle}
    (hwf : h.WF L) (hG : elemPool.Get h = (k, h')) :
    k ∉ L ∧ h'.WF (k :: L) ∧ h'.mem = h.mem ∧ h'.log = h.log ++ [PoolEvent.get k] := by
  obtain ⟨hnd, hlt, hlive⟩ := hwf
  unfold elemPool.Get at hG
  cases hp : h.pool with
  | nil =>
    rw [hp] at hG hlive
    simp only [Prod.mk.injEq] at hG
    obtain ⟨rfl, rfl⟩ := hG
    refine ⟨fun hk => Nat.lt_irrefl _ (hlive _ hk).1, ⟨by simp, by simp, ?_⟩, rfl, rfl⟩
    intro j hj
    simp only [List.mem_cons] at hj
    rcases hj with rfl | hj
    · simp
    · exact ⟨Nat.lt_succ_of_lt (hlive j hj).1, by simp⟩
  | cons q rest =>
    rw [hp] at hG hnd hlt hlive
    simp only [Prod.mk.injEq] at hG
    obtain ⟨rfl, rfl⟩ := hG
    rw [List.nodup_cons] at hnd
    refine ⟨fun hk => (hlive _ hk).2 (List.mem_cons_self _ _), ⟨hnd.2, ?_, ?_⟩, rfl, rfl⟩
    · intro j hj; exact hlt j (List.mem_cons_of_mem _ hj)
    · intro j hj
      simp only [List.mem_cons] at hj
      rcases hj with rfl | hj
      · exact ⟨hlt _ (List.mem_cons_self _ _), hnd.1⟩
      · exact ⟨(hlive j hj).1, fun hm => (hlive j hj).2 (List.mem_cons_of_mem _ hm)⟩

end AuxHeap

section AuxScratch

theorem heldAfter_append (k : Handle) (evs evs' : List PoolEvent) :
    ∀ s, heldAfter k s (evs ++ evs') = (heldAfter k s evs).bind fun s' => heldAfter k s' evs' := by
  induction evs with
  | nil => intro s; rfl
  | cons ev evs ih =>
    intro s
    cases ev with
    | get j =>
      simp only [List.cons_append, heldAfter]
      split_ifs <;> simp [ih]
    | put j =>
      simp only [List.cons_append, heldAfter]
      split_ifs <;> simp [ih]

theorem outstanding_append (evs evs' : List PoolEvent) :
    outstanding (evs ++ evs') = outstanding evs + outstanding evs' := by
  induction evs with
  | nil => simp [outstanding]
  | cons ev evs ih =>
    cases ev with
    | get j =>
      show outstanding (evs ++ evs') + 1 = outstanding evs + 1 + outstanding evs'
      rw [ih]; ring
    | put j =>
      show outstanding (evs ++ evs') - 1 = outstanding evs - 1 + outstanding evs'
      rw [ih]; ring

theorem heldAfter_of_not_mem (k : Handle) (evs : List PoolEvent)
    (hg : PoolEvent.get k ∉ evs) (hp : PoolEvent.put k ∉ evs) :
    ∀ s, heldAfter k s evs = some s := by
  induction evs with
  | nil => intro s; rfl
  | cons ev evs ih =>
    intro s
    simp only [List.mem_cons, not_or] at hg hp
    cases ev with
    | get j =>
      have hj : j ≠ k := fun hjk => hg.1 (by rw [hjk])
      simp only [heldAfter, hj, if_false]
      exact ih hg.2 hp.2 s
    | put j =>
      have hj : j ≠ k := fun hjk => hp.1 (by rw [hjk])
      simp only [heldAfter, hj, if_false]
      exact ih hg.2 hp.2 s

theorem Scratch_nil (L : List Handle) : Scratch L [] :=
  ⟨fun _ => rfl, rfl, fun _ _ => ⟨by simp, by simp⟩⟩

theorem Scratch_append {L : List Handle} {evs evs' : List PoolEvent}
    (h1 : Scratch L evs) (h2 : Scratch L evs') : Scratch L (evs ++ evs') := by
  refine ⟨fun k => ?_, ?_, fun k hk => ?_⟩
  · rw [heldAfter_append, h1.1 k]; exact h2.1 k
  · rw [outstanding_append, h1.2.1, h2.2.1]; rfl
  · simp only [List.mem_append, not_or]
    exact ⟨⟨(h1.2.2 k hk).1, (h2.2.2 k hk).1⟩, ⟨(h1.2.2 k hk).2, (h2.2.2 k hk).2⟩⟩

theorem heldAfter_get_ne {k j : Handle} (hjk : j ≠ k) (s : Bool) (evs : List PoolEvent) :
    heldAfter k s (PoolEvent.get j :: evs) = heldAfter k s evs := by
  simp only [heldAfter, hjk, if_false]

theorem heldAfter_put_ne {k j : Handle} (hjk : j ≠ k) (s : Bool) (evs : List PoolEvent) :
    heldAfter k s (PoolEvent.put j :: evs) = heldAfter k s evs := by
  simp only [heldAfter, hjk, if_false]

/-- Adding the `Get` and a later `Put` of a handle `j` that a disciplined log
does not mention keeps it disciplined. -/
theorem Scratch_insert (L : List Handle) (A B C : List PoolEvent) (j : Handle)
    (h : Scratch (j :: L) (A ++ (B ++ C))) (hj : j ∉ L) :
    Scratch L (A ++ PoolEvent.get j :: (B ++ PoolEvent.put j :: C)) := by
  have hjm := h.2.2 j (List.mem_cons_self _ _)
  simp only [List.mem_append, not_or] at hjm
  refine ⟨fun k => ?_, ?_, fun k hk => ?_⟩
  · by_cases hk : j = k
    · subst hk
      rw [heldAfter_append, heldAfter_of_not_mem j A hjm.1.1 hjm.2.1]
      simp only [Option.some_bind, heldAfter, if_true, Bool.false_eq_true, if_false]
      rw [heldAfter_append, heldAfter_of_not_mem j B hjm.1.2.1 hjm.2.2.1]
      simp only [Option.some_bind, heldAfter, if_true]
      exact heldAfter_of_not_mem j C hjm.1.2.2 hjm.2.2.2 false
    · have h1 := h.1 k
      rw [heldAfter_append] at h1 ⊢
      rw [← h1]
      congr 1
      funext s
      rw [heldAfter_get_ne hk, heldAfter_append, heldAfter_append]
      congr 1
      funext s'
      rw [heldAfter_put_ne hk]
  · have h2 := h.2.1
    simp only [outstanding_append, outstanding] at h2 ⊢
    linarith
  · have hkj : k ≠ j := fun hkj => hj (hkj ▸ hk)
    have hkm := h.2.2 k (List.mem_cons_of_mem _ hk)
    simp only [List.mem_append, not_or] at hkm
    constructor
    · simp [hkj, hkm.1.1, hkm.1.2.1, hkm.1.2.2]
    · simp [hkj, hkm.2.1, hkm.2.2.1, hkm.2.2.2]

end AuxScratch

section AuxHeapSpecs
variable {p : ℕ}

/-- Giving the handles `K` back keeps the pool well formed for the handles `L`
that stay live. -/
theorem Heap.WF_release {h g : Heap p} {M L K : List Handle} (hwf : h.WF M) (hK : K.Nodup)
    (hKM : ∀ k ∈ K, k ∈ M ∧ k ∉ L) (hLM : ∀ k ∈ L, k ∈ M) (hn : g.next = h.next)
    (hp : g.pool = K ++ h.pool) : g.WF L := by
  obtain ⟨nd, lt, live⟩ := hwf
  refine ⟨?_, ?_, ?_⟩
  · rw [hp, List.nodup_append]
    exact ⟨hK, nd, fun k hk hk' => (live k (hKM k hk).1).2 hk'⟩
  · intro k hk
    rw [hp, List.mem_append] at hk
    rw [hn]
    rcases hk with hk | hk
    · exact (live k (hKM k hk).1).1
    · exact lt k hk
  · intro k hk
    rw [hn, hp, List.mem_append]
    refine ⟨(live k (hLM k hk)).1, ?_⟩
    rintro (hk' | hk')
    · exact (hKM k hk').2 hk
    · exact (live k (hLM k hk)).2 hk'

/-- Three successive `Get`s: three pairwise distinct handles outside the live
ones, the memory untouched. -/
theorem elemPool.Get3_spec {h h1 h2 h3 : Heap p} {L : List Handle} {k1 k2 k3 : Handle}
    (hwf : h.WF L) (hG1 : elemPool.Get h = (k1, h1)) (hG2 : elemPool.Get h1 = (k2, h2))
    (hG3 : elemPool.Get h2 = (k3, h3)) :
    (∀ k ∈ L, k ≠ k1 ∧ k ≠ k2 ∧ k ≠ k3) ∧ (k1 ≠ k2 ∧ k1 ≠ k3 ∧ k2 ≠ k3) ∧
    (h1.mem = h.mem ∧ h2.mem = h.mem ∧ h3.mem = h.mem) ∧
    h3.log = h.log ++ [PoolEvent.get k1, PoolEvent.get k2, PoolEvent.get k3] ∧
    h3.WF (k3 :: k2 :: k1 :: L) := by
  obtain ⟨n1, w1, m1, l1⟩ := elemPool.Get_spec hwf hG1
  obtain ⟨n2, w2, m2, l2⟩ := elemPool.Get_spec w1 hG2
  obtain ⟨n3, w3, m3, l3⟩ := elemPool.Get_spec w2 hG3
  simp only [List.mem_cons, not_or] at n2 n3
  refine ⟨fun k hk => ⟨ne_of_mem_of_not_mem hk n1, ne_of_mem_of_not_mem hk n2.2,
    ne_of_mem_of_not_mem hk n3.2.2⟩, ⟨Ne.symm n2.1, Ne.symm n3.2.1, Ne.symm n3.1⟩,
    ⟨m1, by rw [m2, m1], by rw [m3, m2, m1]⟩, ?_, w3⟩
  rw [l3, l2, l1]
  simp

/-- Three handles taken and given back, in the order of `Mul`. -/
theorem Scratch_three_mul {L : List Handle} {k1 k2 k3 : Handle}
    (hL : ∀ k ∈ L, k ≠ k1 ∧ k ≠ k2 ∧ k ≠ k3) (hd : k1 ≠ k2 ∧ k1 ≠ k3 ∧ k2 ≠ k3) :
    Scratch L [PoolEvent.get k1, PoolEvent.get k2, PoolEvent.get k3,
      PoolEvent.put k1, PoolEvent.put k3, PoolEvent.put k2] := by
  have n1 : k1 ∉ L := fun hk => (hL _ hk).1 rfl
  have n2 : k2 ∉ k1 :: L := by
    simp only [List.mem_cons, not_or]; exact ⟨Ne.symm hd.1, fun hk => (hL _ hk).2.1 rfl⟩
  have n3 : k3 ∉ k2 :: k1 :: L := by
    simp only [List.mem_cons, not_or]
    exact ⟨Ne.symm hd.2.2, Ne.symm hd.2.1, fun hk => (hL _ hk).2.2 rfl⟩
  have s0 : Scratch (k3 :: k2 :: k1 :: L) ([] ++ ([] ++ [])) := Scratch_nil _
  have s1 := Scratch_insert _ [] [] [] k3 s0 n3
  have s2 := Scratch_insert _ [] [PoolEvent.get k3, PoolEvent.put k3] [] k2 s1 n2
  exact Scratch_insert _ [] [PoolEvent.get k2, PoolEvent.get k3]
    [PoolEvent.put k3, PoolEvent.put k2] k1 s2 n1

/-- Three handles taken and given back in the same order, as in `Square` and
`Invert`. -/
theorem Scratch_three_fifo {L : List Handle} {k1 k2 k3 : Handle}
    (hL : ∀ k ∈ L, k ≠ k1 ∧ k ≠ k2 ∧ k ≠ k3) (hd : k1 ≠ k2 ∧ k1 ≠ k3 ∧ k2 ≠ k3) :
    Scratch L [PoolEvent.get k1, PoolEvent.get k2, PoolEvent.get k3,
      PoolEvent.put k1, PoolEvent.put k2, PoolEvent.put k3] := by
  have n1 : k1 ∉ L := fun hk => (hL _ hk).1 rfl
  have n2 : k2 ∉ k1 :: L := by
    simp only [List.mem_cons, not_or]; exact ⟨Ne.symm hd.1, fun hk => (hL _ hk).2.1 rfl⟩
  have n3 : k3 ∉ k2 :: k1 :: L := by
    simp only [List.mem_cons, not_or]
    exact ⟨Ne.symm hd.2.2, Ne.symm hd.2.1, fun hk => (hL _ hk).2.2 rfl⟩
  have s0 : Scratch (k3 :: k2 :: k1 :: L) ([] ++ ([] ++ [])) := Scratch_nil _
  have s1 := Scratch_insert _ [] [] [] k3 s0 n3
  have s2 := Scratch_insert _ [] [PoolEvent.get k3] [PoolEvent.put k3] k2 s1 n2
  exact Scratch_insert _ [] [PoolEvent.get k2, PoolEvent.get k3]
    [PoolEvent.put k2, PoolEvent.put k3] k1 s2 n1

end AuxHeapSpecs

section AuxHeapOps
variable {p : ℕ}

theorem gfP2.MulH_spec (e a b : gfP2.Ref) (h : Heap p) (L : List Handle) (hwf : h.WF L)
    (hL : e.x ∈ L ∧ e.y ∈ L ∧ a.x ∈ L ∧ a.y ∈ L ∧ b.x ∈ L ∧ b.y ∈ L) :
    (gfP2.MulH e a b h).WF L ∧
    (e.x ≠ e.y →
      gfP2.val (gfP2.MulH e a b h) e = gfP2.Mul (gfP2.val h a) (gfP2.val h b)) ∧
    (∀ k ∈ L, k ≠ e.x → k ≠ e.y → (gfP2.MulH e a b h).mem k = h.mem k) ∧
    ∃ evs, (gfP2.MulH e a b h).log = h.log ++ evs ∧ Scratch L evs := by
  obtain ⟨hex, hey, hax, hay, hbx, hby⟩ := hL
  simp only [gfP2.MulH, elemPool.Get_store]
  rcases hG1 : elemPool.Get h with ⟨tx, h1⟩
  simp only []
  rcases hG2 : elemPool.Get h1 with ⟨t, h2⟩
  simp only []
  rcases hG3 : elemPool.Get h2 with ⟨ty, h3⟩
  simp only []
  obtain ⟨dL, ⟨d12, d13, d23⟩, ⟨m1, m2, m3⟩, lg, w3⟩ := elemPool.Get3_spec hwf hG1 hG2 hG3
  obtain ⟨ex1, ex2, ex3⟩ := dL _ hex
  obtain ⟨ey1, ey2, ey3⟩ := dL _ hey
  obtain ⟨ax1, ax2, ax3⟩ := dL _ hax
  obtain ⟨ay1, ay2, ay3⟩ := dL _ hay
  obtain ⟨bx1, bx2, bx3⟩ := dL _ hbx
  obtain ⟨by1, by2, by3⟩ := dL _ hby
  refine ⟨?_, ?_, ?_, ?_⟩
  · refine Heap.WF_release w3 (?_ : [t, ty, tx].Nodup) ?_ ?_ rfl rfl
    · simp [d12.symm, d13.symm, d23, d13, d12]
    · intro k hk
      simp only [List.mem_cons, List.mem_singleton, List.not_mem_nil, or_false] at hk
      rcases hk with rfl | rfl | rfl
      · exact ⟨by simp, fun hk => (dL _ hk).2.1 rfl⟩
      · exact ⟨by simp, fun hk => (dL _ hk).2.2 rfl⟩
      · exact ⟨by simp, fun hk => (dL _ hk).1 rfl⟩
    · intro k hk; simp [hk]
  · intro hne
    ext
    · simp [gfP2.val, gfP2.Mul, m1, m2, m3, ax1, ax2, ax3, ay1, ay2, ay3, bx1, bx2, bx3,
        by1, by2, by3, d12, d13, d23, d12.symm, d13.symm, d23.symm, hne, ex1.symm, ex2.symm,
        ex3.symm, ey1.symm, ey2.symm, ey3.symm]
    · simp [gfP2.val, gfP2.Mul, m1, m2, m3, ax1, ax2, ax3, ay1, ay2, ay3, bx1, bx2, bx3,
        by1, by2, by3, d12, d13, d23, d12.symm, d13.symm, d23.symm, hne, ex1.symm, ex2.symm,
        ex3.symm, ey1.symm, ey2.symm, ey3.symm]
  · intro k hk hkx hky
    obtain ⟨k1, k2, k3⟩ := dL _ hk
    simp [m3, hkx, hky, k1, k2, k3]
  · refine ⟨_, ?_, Scratch_three_mul dL ⟨d12, d13, d23⟩⟩
    simp [lg]

theorem gfP2.SquareH_spec (e a : gfP2.Ref) (h : Heap p) (L : List Handle) (hwf : h.WF L)
    (hL : e.x ∈ L ∧ e.y ∈ L ∧ a.x ∈ L ∧ a.y ∈ L) :
    (gfP2.SquareH e a h).WF L ∧
    (e.x ≠ e.y → gfP2.val (gfP2.SquareH e a h) e = gfP2.Square (gfP2.val h a)) ∧
    (∀ k ∈ L, k ≠ e.x → k ≠ e.y → (gfP2.SquareH e a h).mem k = h.mem k) ∧
    ∃ evs, (gfP2.SquareH e a h).log = h.log ++ evs ∧ Scratch L evs := by
  obtain ⟨hex, hey, hax, hay⟩ := hL
  simp only [gfP2.SquareH, elemPool.Get_store]
  rcases hG1 : elemPool.Get h with ⟨t1, h1⟩
  simp only []
  rcases hG2 : elemPool.Get h1 with ⟨t2, h2⟩
  simp only []
  rcases hG3 : elemPool.Get h2 with ⟨tx, h3⟩
  simp only []
  obtain ⟨dL, ⟨d12, d13, d23⟩, ⟨m1, m2, m3⟩, lg, w3⟩ := elemPool.Get3_spec hwf hG1 hG2 hG3
  obtain ⟨ex1, ex2, ex3⟩ := dL _ hex
  obtain ⟨ey1, ey2, ey3⟩ := dL _ hey
  obtain ⟨ax1, ax2, ax3⟩ := dL _ hax
  obtain ⟨ay1, ay2, ay3⟩ := dL _ hay
  refine ⟨?_, ?_, ?_, ?_⟩
  · refine Heap.WF_release w3 (?_ : [tx, t2, t1].Nodup) ?_ ?_ rfl rfl
    · simp [d12.symm, d13.symm, d23.symm]
    · intro k hk
      simp only [List.mem_cons, List.mem_singleton, List.not_mem_nil, or_false] at hk
      rcases hk with rfl | rfl | rfl
      · exact ⟨by simp, fun hk => (dL _ hk).2.2 rfl⟩
      · exact ⟨by simp, fun hk => (dL _ hk).2.1 rfl⟩
      · exact ⟨by simp, fun hk => (dL _ hk).1 rfl⟩
    · intro k hk; simp [hk]
  · intro hne
    ext
    · simp [gfP2.val, gfP2.Square, m1, m2, m3, ax1, ax2, ax3, ay1, ay2, ay3,
        d12, d13, d23, d12.symm, d13.symm, d23.symm, hne, ex1.symm, ex2.symm,
        ex3.symm, ey1.symm, ey2.symm, ey3.symm]
    · simp [gfP2.val, gfP2.Square, m1, m2, m3, ax1, ax2, ax3, ay1, ay2, ay3,
        d12, d13, d23, d12.symm, d13.symm, d23.symm, hne, ex1.symm, ex2.symm,
        ex3.symm, ey1.symm, ey2.symm, ey3.symm]
  · intro k hk hkx hky
    obtain ⟨k1, k2, k3⟩ := dL _ hk
    simp [m3, hkx, hky, k1, k2, k3]
  · refine ⟨_, ?_, Scratch_three_fifo dL ⟨d12, d13, d23⟩⟩
    simp [lg]

end AuxHeapOps

section AuxInvertH
variable {p : ℕ}

/-- What `Invert` does in memory.  The scratch element `inv` is the third handle
the pool hands out; what it holds beforehand enters the result only when the
base-field inversion fails. -/
theorem gfP2.InvertH_spec (e a : gfP2.Ref) (h : Heap p) (L : List Handle) (hwf : h.WF L)
    (hL : e.x ∈ L ∧ e.y ∈ L ∧ a.x ∈ L ∧ a.y ∈ L) :
    (gfP2.InvertH e a h).WF L ∧
    (elemPool.Get (elemPool.Get (elemPool.Get h).2).2).1 ∉ L ∧
    (e.x ≠ e.y → a.x ≠ e.y →
      gfP2.Invert (gfP2.val h a) (h.mem (elemPool.Get (elemPool.Get (elemPool.Get h).2).2).1)
        = some (gfP2.val (gfP2.InvertH e a h) e)) ∧
    (∀ k ∈ L, k ≠ e.x → k ≠ e.y → (gfP2.InvertH e a h).mem k = h.mem k) ∧
    ∃ evs, (gfP2.InvertH e a h).log = h.log ++ evs ∧ Scratch L evs := by
  obtain ⟨hex, hey, hax, hay⟩ := hL
  simp only [gfP2.InvertH, elemPool.Get_store]
  rcases hG1 : elemPool.Get h with ⟨t, h1⟩
  simp only []
  rcases hG2 : elemPool.Get h1 with ⟨t2, h2⟩
  simp only []
  rcases hG3 : elemPool.Get h2 with ⟨inv, h3⟩
  simp only []
  obtain ⟨dL, ⟨d12, d13, d23⟩, ⟨m1, m2, m3⟩, lg, w3⟩ := elemPool.Get3_spec hwf hG1 hG2 hG3
  obtain ⟨ex1, ex2, ex3⟩ := dL _ hex
  obtain ⟨ey1, ey2, ey3⟩ := dL _ hey
  obtain ⟨ax1, ax2, ax3⟩ := dL _ hax
  obtain ⟨ay1, ay2, ay3⟩ := dL _ hay
  refine ⟨?_, fun hk => (dL _ hk).2.2 rfl, ?_, ?_, ?_⟩
  · refine Heap.WF_release w3 (?_ : [inv, t2, t].Nodup) ?_ ?_ rfl rfl
    · simp [d12.symm, d13.symm, d23.symm]
    · intro k hk
      simp only [List.mem_cons, List.mem_singleton, List.not_mem_nil, or_false] at hk
      rcases hk with rfl | rfl | rfl
      · exact ⟨by simp, fun hk => (dL _ hk).2.2 rfl⟩
      · exact ⟨by simp, fun hk => (dL _ hk).2.1 rfl⟩
      · exact ⟨by simp, fun hk => (dL _ hk).1 rfl⟩
    · intro k hk; simp [hk]
  · intro hne hya
    rw [gfP2.Invert_eq_aux]
    congr 1
    ext
    · simp [gfP2.val, baseFieldElem.Mul, baseFieldElem.Add, m1, m2, m3, ax1, ax2, ax3, ay1,
        ay2, ay3, d12, d13, d23, d12.symm, d13.symm, d23.symm, hne, hya, ex3.symm, ey3.symm]
    · simp [gfP2.val, baseFieldElem.Mul, baseFieldElem.Add, baseFieldElem.Neg, m1, m2, m3, ax1,
        ax2, ax3, ay1, ay2, ay3, d12, d13, d23, d12.symm, d13.symm, d23.symm, hne, hne.symm,
        ex3.symm, ey3.symm]
  · intro k hk hkx hky
    obtain ⟨k1, k2, k3⟩ := dL _ hk
    simp [m3, hkx, hky, k1, k2, k3]
  · refine ⟨_, ?_, Scratch_three_fifo dL ⟨d12, d13, d23⟩⟩
    simp [lg]

end AuxInvertH

section AuxExpH
variable {p : ℕ}

theorem gfP2.SetH_spec (e a : gfP2.Ref) (h : Heap p) (hay : a.y ≠ e.x) (hne : e.x ≠ e.y) :
    gfP2.val (gfP2.SetH e a h) e = gfP2.Set (gfP2.val h a) ∧
    (∀ k, k ≠ e.x → k ≠ e.y → (gfP2.SetH e a h).mem k = h.mem k) ∧
    (gfP2.SetH e a h).pool = h.pool ∧ (gfP2.SetH e a h).next = h.next ∧
    (gfP2.SetH e a h).log = h.log := by
  refine ⟨?_, ?_, rfl, rfl, rfl⟩
  · ext
    · simp [gfP2.SetH, gfP2.val, gfP2.Set, hne]
    · simp [gfP2.SetH, gfP2.val, gfP2.Set, hay]
  · intro k k1 k2
    simp [gfP2.SetH, k1, k2]

theorem gfP2.SetH_WF (e a : gfP2.Ref) (h : Heap p) (L : List Handle) (hwf : h.WF L) :
    (gfP2.SetH e a h).WF L := hwf

/-- What the loop of `Exp` does in memory, for scratch elements `sum` and `t`
that are distinct from each other and from the operand `a`. -/
theorem gfP2.ExpH_loop_spec (a sum t : gfP2.Ref) (power : ℤ) (L : List Handle)
    (hL : a.x ∈ L ∧ a.y ∈ L ∧ sum.x ∈ L ∧ sum.y ∈ L ∧ t.x ∈ L ∧ t.y ∈ L)
    (hs : sum.x ≠ sum.y) (ht : t.x ≠ t.y)
    (hst : sum.x ≠ t.x ∧ sum.x ≠ t.y ∧ sum.y ≠ t.x ∧ sum.y ≠ t.y)
    (has : a.x ≠ sum.x ∧ a.x ≠ sum.y ∧ a.y ≠ sum.x ∧ a.y ≠ sum.y)
    (hat : a.x ≠ t.x ∧ a.x ≠ t.y ∧ a.y ≠ t.x ∧ a.y ≠ t.y) :
    ∀ (i : ℕ) (h : Heap p), h.WF L →
      (gfP2.ExpH.loop a sum t power i h).WF L ∧
      gfP2.val (gfP2.ExpH.loop a sum t power i h) sum
        = gfP2.Exp.loop (gfP2.val h a) power i (gfP2.val h sum) ∧
      (∀ k ∈ L, k ≠ sum.x → k ≠ sum.y → k ≠ t.x → k ≠ t.y →
        (gfP2.ExpH.loop a sum t power i h).mem k = h.mem k) ∧
      ∃ evs, (gfP2.ExpH.loop a sum t power i h).log = h.log ++ evs ∧ Scratch L evs := by
  obtain ⟨hax, hay, hsx, hsy, htx, hty⟩ := hL
  intro i
  induction i with
  | zero =>
    intro h hwf
    exact ⟨hwf, rfl, fun _ _ _ _ _ _ => rfl, [], by simp [gfP2.ExpH.loop], Scratch_nil L⟩
  | succ i ih =>
    intro h hwf
    obtain ⟨w1, v1, f1, evs1, l1, s1⟩ :=
      gfP2.SquareH_spec t sum h L hwf ⟨htx, hty, hsx, hsy⟩
    have a1 : gfP2.val (gfP2.SquareH t sum h) a = gfP2.val h a := by
      ext
      · exact f1 _ hax hat.1 hat.2.1
      · exact f1 _ hay hat.2.2.1 hat.2.2.2
    simp only [gfP2.ExpH.loop, gfP2.Exp.loop]
    cases hb : power.testBit i
    · simp only [Bool.false_eq_true, if_false]
      obtain ⟨v2, f2, p2, n2, l2⟩ :=
        gfP2.SetH_spec sum t (gfP2.SquareH t sum h) hst.2.1.symm hs
      have w2 := gfP2.SetH_WF sum t _ L w1
      obtain ⟨w3, v3, f3, evs3, l3, s3⟩ := ih _ w2
      have a2 : gfP2.val (gfP2.SetH sum t (gfP2.SquareH t sum h)) a = gfP2.val h a := by
        rw [← a1]
        ext
        · exact f2 _ has.1 has.2.1
        · exact f2 _ has.2.2.1 has.2.2.2
      refine ⟨w3, ?_, ?_, evs1 ++ evs3, ?_, Scratch_append s1 s3⟩
      · rw [v3, a2, v2, v1 ht]
      · intro k hk k1 k2 k3 k4
        rw [f3 k hk k1 k2 k3 k4, f2 k k1 k2, f1 k hk k3 k4]
      · rw [l3, l2, l1, List.append_assoc]
    · simp only [if_true]
      obtain ⟨w2, v2, f2, evs2, l2, s2⟩ :=
        gfP2.MulH_spec sum t a (gfP2.SquareH t sum h) L w1 ⟨hsx, hsy, htx, hty, hax, hay⟩
      obtain ⟨w3, v3, f3, evs3, l3, s3⟩ := ih _ w2
      have a2 : gfP2.val (gfP2.MulH sum t a (gfP2.SquareH t sum h)) a = gfP2.val h a := by
        rw [← a1]
        ext
        · exact f2 _ hax has.1 has.2.1
        · exact f2 _ hay has.2.2.1 has.2.2.2
      refine ⟨w3, ?_, ?_, evs1 ++ (evs2 ++ evs3), ?_,
        Scratch_append s1 (Scratch_append s2 s3)⟩
      · rw [v3, a2, v2 hs, v1 ht, a1]
      · intro k hk k1 k2 k3 k4
        rw [f3 k hk k1 k2 k3 k4, f2 k hk k1 k2, f1 k hk k3 k4]
      · rw [l3, l2, l1, List.append_assoc, List.append_assoc]

end AuxExpH

section AuxExpH2
variable {p : ℕ}

theorem gfP2.ExpH_spec (c a : gfP2.Ref) (power : ℤ) (h : Heap p) (L : List Handle)
    (hwf : h.WF L) (hL : c.x ∈ L ∧ c.y ∈ L ∧ a.x ∈ L ∧ a.y ∈ L) :
    (gfP2.ExpH c a power h).WF L ∧
    (c.x ≠ c.y → gfP2.val (gfP2.ExpH c a power h) c = gfP2.Exp (gfP2.val h a) power) ∧
    (∀ k ∈ L, k ≠ c.x → k ≠ c.y → (gfP2.ExpH c a power h).mem k = h.mem k) ∧
    ∃ evs, (gfP2.ExpH c a power h).log = h.log ++ evs ∧ Scratch L evs := by
  obtain ⟨hcx, hcy, hax, hay⟩ := hL
  simp only [gfP2.ExpH, gfP2.newGFp2H, gfP2.SetOneH, gfP2.PutH, elemPool.Get_store]
  rcases hG1 : elemPool.Get h with ⟨k1, h1⟩
  simp only []
  rcases hG2 : elemPool.Get h1 with ⟨k2, h2⟩
  simp only []
  rcases hG3 : elemPool.Get h2 with ⟨k3, h3⟩
  simp only []
  rcases hG4 : elemPool.Get h3 with ⟨k4, h4⟩
  simp only []
  obtain ⟨dL, ⟨d12, d13, d23⟩, ⟨m1, m2, m3⟩, lg, w3⟩ := elemPool.Get3_spec hwf hG1 hG2 hG3
  obtain ⟨n4, w4, m4, l4⟩ := elemPool.Get_spec w3 hG4
  simp only [List.mem_cons, not_or] at n4
  obtain ⟨d43, d42, d41, n4⟩ := n4
  have dL4 : ∀ k ∈ L, k ≠ k4 := fun k hk => ne_of_mem_of_not_mem hk n4
  generalize hH0 : Heap.store (Heap.store h4 _ _) _ _ = H0
  have H0k : ∀ k, k ≠ k1 → k ≠ k2 → H0.mem k = h.mem k := by
    intro k e1 e2; subst hH0; simp [m4, m3, e1, e2]
  have H0sum : gfP2.val H0 { x := k1, y := k2 } = gfP2.SetOne := by
    subst hH0; ext <;> simp [gfP2.val, gfP2.SetOne, d12]
  have H0log : H0.log = h4.log := by subst hH0; rfl
  have H0WF : H0.WF (k4 :: k3 :: k2 :: k1 :: L) := by subst hH0; exact w4
  have H0a : gfP2.val H0 a = gfP2.val h a := by
    ext
    · exact H0k _ (dL _ hax).1 (dL _ hax).2.1
    · exact H0k _ (dL _ hay).1 (dL _ hay).2.1
  obtain ⟨wl, vl, fl, evs, ll, sl⟩ :=
    gfP2.ExpH_loop_spec a { x := k1, y := k2 } { x := k3, y := k4 } power
      (k4 :: k3 :: k2 :: k1 :: L)
      ⟨by simp [hax], by simp [hay], by simp, by simp, by simp, by simp⟩
      d12 (Ne.symm d43) ⟨d13, Ne.symm d41, d23, Ne.symm d42⟩
      ⟨(dL _ hax).1, (dL _ hax).2.1, (dL _ hay).1, (dL _ hay).2.1⟩
      ⟨(dL _ hax).2.2, dL4 _ hax, (dL _ hay).2.2, dL4 _ hay⟩
      power.natAbs.size H0 H0WF
  generalize gfP2.ExpH.loop a { x := k1, y := k2 } { x := k3, y := k4 } power
    power.natAbs.size H0 = Hl at wl vl fl ll ⊢
  have fs : ∀ k, k ≠ c.x → k ≠ c.y →
      (gfP2.SetH c { x := k1, y := k2 } Hl).mem k = Hl.mem k := by
    intro k e1 e2
    simp [gfP2.SetH, e1, e2]
  have ls : (gfP2.SetH c { x := k1, y := k2 } Hl).log = Hl.log := rfl
  refine ⟨?_, ?_, ?_, ?_⟩
  · refine Heap.WF_release (gfP2.SetH_WF c { x := k1, y := k2 } Hl _ wl)
      (?_ : [k4, k3, k2, k1].Nodup) ?_ ?_ rfl rfl
    · simp [d12.symm, d13.symm, d23.symm, d41, d42, d43]
    · intro k hk
      simp only [List.mem_cons, List.mem_singleton, List.not_mem_nil, or_false] at hk
      rcases hk with rfl | rfl | rfl | rfl
      · exact ⟨by simp, n4⟩
      · exact ⟨by simp, fun hk => (dL _ hk).2.2 rfl⟩
      · exact ⟨by simp, fun hk => (dL _ hk).2.1 rfl⟩
      · exact ⟨by simp, fun hk => (dL _ hk).1 rfl⟩
    · intro k hk; simp [hk]
  · intro hne
    show gfP2.val (gfP2.SetH c { x := k1, y := k2 } Hl) c = _
    rw [(gfP2.SetH_spec c { x := k1, y := k2 } Hl (dL _ hcx).2.1.symm hne).1, vl, H0a, H0sum]
    rfl
  · intro k hk kx ky
    show (gfP2.SetH c { x := k1, y := k2 } Hl).mem k = _
    rw [fs k kx ky, fl k (by simp [hk]) (dL k hk).1 (dL k hk).2.1 (dL k hk).2.2 (dL4 k hk),
      H0k k (dL k hk).1 (dL k hk).2.1]
  · have s1 := Scratch_insert _ [] evs [] k4
      (by simpa using sl) (by simp [d41, d42, d43, n4])
    have s2 := Scratch_insert _ [] (PoolEvent.get k4 :: evs) [PoolEvent.put k4] k3 s1
      (by simp [d13.symm, d23.symm]; exact fun hk => (dL _ hk).2.2 rfl)
    have s3 := Scratch_insert _ [] (PoolEvent.get k3 :: PoolEvent.get k4 :: evs)
      [PoolEvent.put k3, PoolEvent.put k4] k2 s2
      (by simp [d12.symm]; exact fun hk => (dL _ hk).2.1 rfl)
    have s4 := Scratch_insert _ [] (PoolEvent.get k2 :: PoolEvent.get k3 :: PoolEvent.get k4 :: evs)
      [PoolEvent.put k2, PoolEvent.put k3, PoolEvent.put k4] k1 s3
      (fun hk => (dL _ hk).1 rfl)
    refine ⟨_, ?_, s4⟩
    show (((gfP2.SetH c { x := k1, y := k2 } Hl).log ++ _) ++ _ ++ _) ++ _ = _
    rw [ls, ll, H0log, l4, lg]
    simp

end AuxExpH2

section AuxCount
variable {p : ℕ}

theorem gfP2.Exp_loopCalls_eq (a : gfP2 p) (power : ℤ) :
    ∀ (i : ℕ) (sum : gfP2 p) (sq mu : ℕ),
      gfP2.Exp.loopCalls a power i (sum, sq, mu) =
        (gfP2.Exp.loop a power i sum, sq + i,
          mu + ((List.range i).filter fun j => power.testBit j).length) := by
  intro i
  induction i with
  | zero => intro sum sq mu; simp [gfP2.Exp.loopCalls, gfP2.Exp.loop]
  | succ i ih =>
    intro sum sq mu
    simp only [gfP2.Exp.loopCalls, gfP2.Exp.loop, List.range_succ, List.filter_append,
      List.length_append]
    cases hb : power.testBit i
    · simp only [Bool.false_eq_true, if_false, ih]
      simp [List.filter_cons, hb]
      omega
    · simp only [if_true, ih]
      simp [List.filter_cons, hb]
      omega

/-- No bit at or above the bit length is set, so `setBits` counts every set bit. -/
theorem testBit_of_size_le (n i : ℕ) (hi : n.size ≤ i) : n.testBit i = false :=
  Nat.testBit_eq_false_of_lt
    (lt_of_lt_of_le (Nat.lt_size_self n) (Nat.pow_le_pow_right (by decide) hi))

theorem setBits_le_size (n : ℕ) : setBits n ≤ n.size := by
  unfold setBits
  calc ((List.range n.size).filter fun i => n.testBit i).length
      ≤ (List.range n.size).length := List.length_filter_le _ _
    _ = n.size := List.length_range _

end AuxCount

section AuxDomain
variable {p : ℕ}

theorem gfP2.IsZero_eq_true_iff (a : gfP2 p) :
    gfP2.IsZero a = true ↔ a.x = 0 ∧ a.y = 0 := by
  simp [gfP2.IsZero, baseFieldElem.IsZero]

/-- The norm is multiplicative. -/
theorem gfP2.norm_Mul (a b : gfP2 p) :
    (gfP2.Mul a b).x * (gfP2.Mul a b).x + (gfP2.Mul a b).y * (gfP2.Mul a b).y
      = (a.x * a.x + a.y * a.y) * (b.x * b.x + b.y * b.y) := by
  rw [gfP2.Mul_x, gfP2.Mul_y]; ring

theorem gfP2.norm_eq_zero_iff [Fact p.Prime] (hneg : ¬ IsSquare (-1 : ZMod p)) (a : gfP2 p) :
    a.x * a.x + a.y * a.y = 0 ↔ gfP2.IsZero a = true := by
  rw [gfP2.IsZero_eq_true_iff]
  constructor
  · intro hN
    by_contra hne
    exact norm_ne_zero_aux hneg a.x a.y hne hN
  · rintro ⟨hx, hy⟩
    rw [hx, hy]; ring

theorem gfP2.IsZero_Mul_aux [Fact p.Prime] (hneg : ¬ IsSquare (-1 : ZMod p)) (a b : gfP2 p) :
    gfP2.IsZero (gfP2.Mul a b) = true ↔ gfP2.IsZero a = true ∨ gfP2.IsZero b = true := by
  rw [← gfP2.norm_eq_zero_iff hneg, ← gfP2.norm_eq_zero_iff hneg, ← gfP2.norm_eq_zero_iff hneg,
    gfP2.norm_Mul]
  exact mul_eq_zero

end AuxDomain

/-! ## In-place use and the pool -/

/-- C11: when the receiver of `Mul` is the same element as operand `a`, as
operand `b`, or as both, and when the receiver of `Square` is the same element as
its input, the receiver ends up holding what a distinct receiver `d` ends up
holding: the product (the square) of the operands' values before the call. -/
theorem gfP2_Mul_Square_in_place (p : ℕ) (h : Heap p) (L : List Handle) (a b d : gfP2.Ref)
    (hwf : h.WF L) (hL : a.x ∈ L ∧ a.y ∈ L ∧ b.x ∈ L ∧ b.y ∈ L ∧ d.x ∈ L ∧ d.y ∈ L)
    (ha : a.x ≠ a.y) (hb : b.x ≠ b.y) (hd : d.x ≠ d.y) :
    (gfP2.val (gfP2.MulH a a b h) a = gfP2.Mul (gfP2.val h a) (gfP2.val h b) ∧
     gfP2.val (gfP2.MulH b a b h) b = gfP2.Mul (gfP2.val h a) (gfP2.val h b) ∧
     gfP2.val (gfP2.MulH a a a h) a = gfP2.Mul (gfP2.val h a) (gfP2.val h a) ∧
     gfP2.val (gfP2.MulH d a b h) d = gfP2.Mul (gfP2.val h a) (gfP2.val h b) ∧
     gfP2.val (gfP2.MulH d a a h) d = gfP2.Mul (gfP2.val h a) (gfP2.val h a)) ∧
    (gfP2.val (gfP2.SquareH a a h) a = gfP2.Square (gfP2.val h a) ∧
     gfP2.val (gfP2.SquareH d a h) d = gfP2.Square (gfP2.val h a)) := by
  obtain ⟨hax, hay, hbx, hby, hdx, hdy⟩ := hL
  exact ⟨⟨(gfP2.MulH_spec a a b h L hwf ⟨hax, hay, hax, hay, hbx, hby⟩).2.1 ha,
    (gfP2.MulH_spec b a b h L hwf ⟨hbx, hby, hax, hay, hbx, hby⟩).2.1 hb,
    (gfP2.MulH_spec a a a h L hwf ⟨hax, hay, hax, hay, hax, hay⟩).2.1 ha,
    (gfP2.MulH_spec d a b h L hwf ⟨hdx, hdy, hax, hay, hbx, hby⟩).2.1 hd,
    (gfP2.MulH_spec d a a h L hwf ⟨hdx, hdy, hax, hay, hax, hay⟩).2.1 hd⟩,
    (gfP2.SquareH_spec a a h L hwf ⟨hax, hay, hax, hay⟩).2.1 ha,
    (gfP2.SquareH_spec d a h L hwf ⟨hdx, hdy, hax, hay⟩).2.1 hd⟩

/-- C11 on the sample memory, with `a = 3 + 5i` at handles 0, 1, `b = 7 + 2i` at
2, 3 and a third element at 4, 5: in place, `a` becomes `11 + 41i`. -/
theorem gfP2_Mul_Square_in_place_witness :
    sampleHeap.WF [0, 1, 2, 3, 4, 5] ∧
    gfP2.val (gfP2.MulH ⟨0, 1⟩ ⟨0, 1⟩ ⟨2, 3⟩ sampleHeap) ⟨0, 1⟩ = ⟨11, 41⟩ ∧
    gfP2.val (gfP2.MulH ⟨0, 1⟩ ⟨0, 1⟩ ⟨2, 3⟩ sampleHeap) ⟨0, 1⟩
      = gfP2.Mul (gfP2.val sampleHeap ⟨0, 1⟩) (gfP2.val sampleHeap ⟨2, 3⟩) ∧
    gfP2.val (gfP2.SquareH ⟨0, 1⟩ ⟨0, 1⟩ sampleHeap) ⟨0, 1⟩
      = gfP2.Square (gfP2.val sampleHeap ⟨0, 1⟩) :=
  have h := gfP2_Mul_Square_in_place fourqP sampleHeap [0, 1, 2, 3, 4, 5] ⟨0, 1⟩ ⟨2, 3⟩ ⟨4, 5⟩
    (by decide) (by decide) (by decide) (by decide) (by decide)
  ⟨by decide, by decide, h.1.1, h.2.1⟩

/-- C12: on an explicit pool state, each of `Mul`, `Square`, `Invert` and `Exp`
releases every scratch handle it acquired exactly once before returning (as many
handles are outside the pool after the call as before), whatever the operands
hold, the zero element for `Invert` included, and none of them acquires or
releases a handle of the receiver or of an operand. -/
theorem gfP2_pool_discipline (p : ℕ) (h : Heap p) (L : List Handle) (e a b : gfP2.Ref)
    (power : ℤ) (hwf : h.WF L)
    (hL : e.x ∈ L ∧ e.y ∈ L ∧ a.x ∈ L ∧ a.y ∈ L ∧ b.x ∈ L ∧ b.y ∈ L) :
    (∃ evs, (gfP2.MulH e a b h).log = h.log ++ evs ∧ Scratch L evs) ∧
    (∃ evs, (gfP2.SquareH e a h).log = h.log ++ evs ∧ Scratch L evs) ∧
    (∃ evs, (gfP2.InvertH e a h).log = h.log ++ evs ∧ Scratch L evs) ∧
    (∃ evs, (gfP2.ExpH e a power h).log = h.log ++ evs ∧ Scratch L evs) := by
  obtain ⟨hex, hey, hax, hay, hbx, hby⟩ := hL
  exact ⟨(gfP2.MulH_spec e a b h L hwf ⟨hex, hey, hax, hay, hbx, hby⟩).2.2.2,
    (gfP2.SquareH_spec e a h L hwf ⟨hex, hey, hax, hay⟩).2.2.2,
    (gfP2.InvertH_spec e a h L hwf ⟨hex, hey, hax, hay⟩).2.2.2.2,
    (gfP2.ExpH_spec e a power h L hwf ⟨hex, hey, hax, hay⟩).2.2.2⟩

/-- C12 on the sample memory, inverting the zero element at handles 4, 5 into the
receiver at 0, 1: the three scratch handles 7, 6 and 8 are taken and given back,
and the receiver ends up holding `(0, 0)`. -/
theorem gfP2_pool_discipline_witness :
    sampleHeap.WF [0, 1, 2, 3, 4, 5] ∧
    gfP2.val sampleHeap ⟨4, 5⟩ = gfP2.SetZero ∧
    (∃ evs, (gfP2.InvertH ⟨0, 1⟩ ⟨4, 5⟩ sampleHeap).log = sampleHeap.log ++ evs ∧
      Scratch [0, 1, 2, 3, 4, 5] evs) ∧
    (gfP2.InvertH ⟨0, 1⟩ ⟨4, 5⟩ sampleHeap).log =
      [PoolEvent.get 7, PoolEvent.get 6, PoolEvent.get 8,
       PoolEvent.put 7, PoolEvent.put 6, PoolEvent.put 8] ∧
    outstanding (gfP2.InvertH ⟨0, 1⟩ ⟨4, 5⟩ sampleHeap).log = 0 ∧
    (gfP2.InvertH ⟨0, 1⟩ ⟨4, 5⟩ sampleHeap).pool = [8, 6, 7] ∧
    gfP2.val (gfP2.InvertH ⟨0, 1⟩ ⟨4, 5⟩ sampleHeap) ⟨0, 1⟩ = ⟨0, 0⟩ :=
  ⟨by decide, by decide,
    (gfP2_pool_discipline fourqP sampleHeap [0, 1, 2, 3, 4, 5] ⟨0, 1⟩ ⟨4, 5⟩ ⟨2, 3⟩ 5
      (by decide) (by decide)).2.2.1,
    by decide, by decide, by decide, by decide⟩

/-- C20: `Invert` and `Exp` are safe in place: with the receiver the same element
as `a`, the receiver ends up holding what a distinct receiver `d` ends up holding,
the result computed from the value of `a` before the call (for `Invert`, with the
same scratch element, a handle `k` outside the live ones); and with the distinct
receiver `d` the value of `a` is unchanged by the call. -/
theorem gfP2_Invert_Exp_in_place (p : ℕ) (h : Heap p) (L : List Handle) (a d : gfP2.Ref)
    (power : ℤ) (hwf : h.WF L) (hL : a.x ∈ L ∧ a.y ∈ L ∧ d.x ∈ L ∧ d.y ∈ L)
    (ha : a.x ≠ a.y) (hd : d.x ≠ d.y)
    (hda : d.x ≠ a.x ∧ d.x ≠ a.y ∧ d.y ≠ a.x ∧ d.y ≠ a.y) :
    ((∃ k, k ∉ L ∧
        gfP2.Invert (gfP2.val h a) (h.mem k) = some (gfP2.val (gfP2.InvertH a a h) a) ∧
        gfP2.Invert (gfP2.val h a) (h.mem k) = some (gfP2.val (gfP2.InvertH d a h) d)) ∧
     gfP2.val (gfP2.InvertH a a h) a = gfP2.val (gfP2.InvertH d a h) d ∧
     gfP2.val (gfP2.InvertH d a h) a = gfP2.val h a) ∧
    (gfP2.val (gfP2.ExpH a a power h) a = gfP2.Exp (gfP2.val h a) power ∧
     gfP2.val (gfP2.ExpH d a power h) d = gfP2.Exp (gfP2.val h a) power ∧
     gfP2.val (gfP2.ExpH d a power h) a = gfP2.val h a) := by
  obtain ⟨hax, hay, hdx, hdy⟩ := hL
  obtain ⟨_, nk, va, _, _⟩ := gfP2.InvertH_spec a a h L hwf ⟨hax, hay, hax, hay⟩
  obtain ⟨_, _, vd, fd, _⟩ := gfP2.InvertH_spec d a h L hwf ⟨hdx, hdy, hax, hay⟩
  have ea := gfP2.ExpH_spec a a power h L hwf ⟨hax, hay, hax, hay⟩
  have ed := gfP2.ExpH_spec d a power h L hwf ⟨hdx, hdy, hax, hay⟩
  have va' := va ha ha
  have vd' := vd hd hda.2.2.1.symm
  refine ⟨⟨⟨_, nk, va', vd'⟩, ?_, ?_⟩, ea.2.1 ha, ed.2.1 hd, ?_⟩
  · exact Option.some.inj (va'.symm.trans vd')
  · ext
    · exact fd _ hax hda.1.symm hda.2.2.1.symm
    · exact fd _ hay hda.2.1.symm hda.2.2.2.symm
  · ext
    · exact ed.2.2.1 _ hax hda.1.symm hda.2.2.1.symm
    · exact ed.2.2.1 _ hay hda.2.1.symm hda.2.2.2.symm

/-- C20 on the sample memory, with `a = 3 + 5i` at handles 0, 1 and the receiver
`d` at 4, 5, for the exponent 5. -/
theorem gfP2_Invert_Exp_in_place_witness :
    sampleHeap.WF [0, 1, 4, 5] ∧
    ((∃ k, k ∉ [0, 1, 4, 5] ∧
        gfP2.Invert (gfP2.val sampleHeap ⟨0, 1⟩) (sampleHeap.mem k)
          = some (gfP2.val (gfP2.InvertH ⟨0, 1⟩ ⟨0, 1⟩ sampleHeap) ⟨0, 1⟩) ∧
        gfP2.Invert (gfP2.val sampleHeap ⟨0, 1⟩) (sampleHeap.mem k)
          = some (gfP2.val (gfP2.InvertH ⟨4, 5⟩ ⟨0, 1⟩ sampleHeap) ⟨4, 5⟩)) ∧
     gfP2.val (gfP2.InvertH ⟨0, 1⟩ ⟨0, 1⟩ sampleHeap) ⟨0, 1⟩
        = gfP2.val (gfP2.InvertH ⟨4, 5⟩ ⟨0, 1⟩ sampleHeap) ⟨4, 5⟩ ∧
     gfP2.val (gfP2.InvertH ⟨4, 5⟩ ⟨0, 1⟩ sampleHeap) ⟨0, 1⟩
        = gfP2.val sampleHeap ⟨0, 1⟩) ∧
    (gfP2.val (gfP2.ExpH ⟨0, 1⟩ ⟨0, 1⟩ 5 sampleHeap) ⟨0, 1⟩
        = gfP2.Exp (gfP2.val sampleHeap ⟨0, 1⟩) 5 ∧
     gfP2.val (gfP2.ExpH ⟨4, 5⟩ ⟨0, 1⟩ 5 sampleHeap) ⟨4, 5⟩
        = gfP2.Exp (gfP2.val sampleHeap ⟨0, 1⟩) 5 ∧
     gfP2.val (gfP2.ExpH ⟨4, 5⟩ ⟨0, 1⟩ 5 sampleHeap) ⟨0, 1⟩
        = gfP2.val sampleHeap ⟨0, 1⟩) :=
  ⟨by decide,
    gfP2_Invert_Exp_in_place fourqP sampleHeap [0, 1, 4, 5] ⟨0, 1⟩ ⟨4, 5⟩ 5
      (by decide) (by decide) (by decide) (by decide) (by decide)⟩

/-! ## Identities of the field operations -/

/-- C13: for every `a`, `Mul(a, One)` equals `a`, where `One`, the element set by
`SetOne`, is `(1, 0)`. -/
theorem gfP2_Mul_One (p : ℕ) (a : gfP2 p) :
    gfP2.Mul a gfP2.SetOne = a ∧ gfP2.SetOne = (⟨1, 0⟩ : gfP2 p) :=
  ⟨gfP2.Mul_SetOne_aux a, rfl⟩

/-- C14: for every `a`, with `Zero` the element set by `SetZero`: `Add(a, Zero)`
equals `a`, `Sub(a, a)` equals `Zero`, and `Add(a, Neg(a))` equals `Zero`. -/
theorem gfP2_additive_identities (p : ℕ) (a : gfP2 p) :
    gfP2.Add a gfP2.SetZero = a ∧
    gfP2.Sub a a = gfP2.SetZero ∧
    gfP2.Add a (gfP2.Neg a) = gfP2.SetZero := by
  refine ⟨?_, ?_, ?_⟩ <;> ext <;>
    simp [gfP2.Add, gfP2.Sub, gfP2.Neg, gfP2.SetZero, baseFieldElem.Add, baseFieldElem.Sub,
      baseFieldElem.Neg, baseFieldElem.SetZero]

/-- C15: for every `a`, `Dbl(a)` equals `Add(a, a)`; both hold twice each
component of `a`. -/
theorem gfP2_Dbl_eq_Add (p : ℕ) (a : gfP2 p) :
    gfP2.Dbl a = gfP2.Add a a ∧
    (gfP2.Dbl a).x = 2 * a.x ∧ (gfP2.Dbl a).y = 2 * a.y := by
  refine ⟨?_, ?_, ?_⟩
  · ext
    · simp only [gfP2.Dbl, gfP2.Add, baseFieldElem.Dbl, baseFieldElem.Add]
    · simp only [gfP2.Dbl, gfP2.Add, baseFieldElem.Dbl, baseFieldElem.Add]
  · simp only [gfP2.Dbl, baseFieldElem.Dbl, two_mul]
  · simp only [gfP2.Dbl, baseFieldElem.Dbl, two_mul]

/-- C16: for every `a = (x, y)` whose norm `N = x² + y²` is invertible in the
base field, `Invert(a)` leaves the receiver holding `x_out = x · N⁻¹` and
`y_out = -y · N⁻¹`, with `N · N⁻¹ = 1`. -/
theorem gfP2_Invert_formula (p : ℕ) [Fact p.Prime] (a : gfP2 p) (inv : baseFieldElem p)
    (hN : a.x ^ 2 + a.y ^ 2 ≠ 0) :
    gfP2.Invert a inv
      = some { x := a.x * (a.x ^ 2 + a.y ^ 2)⁻¹,
               y := -a.y * (a.x ^ 2 + a.y ^ 2)⁻¹ } ∧
    (a.x ^ 2 + a.y ^ 2) * (a.x ^ 2 + a.y ^ 2)⁻¹ = 1 := by
  refine ⟨?_, mul_inv_cancel₀ hN⟩
  rw [sq, sq] at hN ⊢
  exact gfP2.Invert_eq_some_aux a inv hN

/-- C16 at the FourQ prime and `a = 3 + 5i`, of norm 34. -/
theorem gfP2_Invert_formula_witness :
    ((3 : ZMod fourqP) ^ 2 + 5 ^ 2 ≠ 0) ∧
    gfP2.Invert (⟨3, 5⟩ : gfP2 fourqP) 9
      = some { x := 3 * ((3 : ZMod fourqP) ^ 2 + 5 ^ 2)⁻¹,
               y := -5 * ((3 : ZMod fourqP) ^ 2 + 5 ^ 2)⁻¹ } ∧
    ((3 : ZMod fourqP) ^ 2 + 5 ^ 2) * ((3 : ZMod fourqP) ^ 2 + 5 ^ 2)⁻¹ = 1 :=
  ⟨by decide, gfP2_Invert_formula fourqP ⟨3, 5⟩ 9 (by decide)⟩

/-- C17: for every `a` and every non-negative exponent `n`, `Exp(a, n)` makes
exactly `bitLength(n)` calls to `Square` and as many calls to `Mul` as `n` has set
bits, which is at most `bitLength(n)`; for `n = 0` it makes neither. -/
theorem gfP2_Exp_call_counts (p : ℕ) (a : gfP2 p) (n : ℕ) :
    (gfP2.ExpCalls a (n : ℤ)).1 = gfP2.Exp a (n : ℤ) ∧
    (gfP2.ExpCalls a (n : ℤ)).2.1 = n.size ∧
    (gfP2.ExpCalls a (n : ℤ)).2.2 = setBits n ∧
    setBits n ≤ n.size ∧
    gfP2.ExpCalls a 0 = (gfP2.SetOne, 0, 0) := by
  have hbit : (fun j => (n : ℤ).testBit j) = fun j => n.testBit j := rfl
  refine ⟨?_, ?_, ?_, setBits_le_size n, ?_⟩
  · simp only [gfP2.ExpCalls, gfP2.Exp_loopCalls_eq, gfP2.Exp]
  · simp only [gfP2.ExpCalls, gfP2.Exp_loopCalls_eq, Int.natAbs_ofNat, Nat.zero_add]
  · simp only [gfP2.ExpCalls, gfP2.Exp_loopCalls_eq, Int.natAbs_ofNat, Nat.zero_add, hbit,
      setBits]
  · show gfP2.ExpCalls a ((0 : ℕ) : ℤ) = _
    simp only [gfP2.ExpCalls, Int.natAbs_ofNat, Nat.size_zero, gfP2.Exp.loopCalls, gfP2.Set_eq]

/-- C18: `Mul` distributes over `Add`: `Mul(a, Add(b, c))` equals
`Add(Mul(a, b), Mul(a, c))` for all `a`, `b`, `c`. -/
theorem gfP2_Mul_distrib_Add (p : ℕ) (a b c : gfP2 p) :
    gfP2.Mul a (gfP2.Add b c) = gfP2.Add (gfP2.Mul a b) (gfP2.Mul a c) := by
  ext
  · simp only [gfP2.Mul_x, gfP2.Add, baseFieldElem.Add]; ring
  · simp only [gfP2.Mul_y, gfP2.Add, baseFieldElem.Add]; ring

/-- C19: when the base field is a field in which `-1` is not a square, the
extension has no zero divisors: `IsZero(Mul(a, b))` holds if and only if
`IsZero(a)` or `IsZero(b)`; and the norm `x² + y²` used by `Invert` is zero only
for the zero element. -/
theorem gfP2_no_zero_divisors (p : ℕ) [Fact p.Prime] (hneg : ¬ IsSquare (-1 : ZMod p))
    (a b : gfP2 p) :
    (gfP2.IsZero (gfP2.Mul a b) = true ↔ gfP2.IsZero a = true ∨ gfP2.IsZero b = true) ∧
    (a.x ^ 2 + a.y ^ 2 = 0 ↔ gfP2.IsZero a = true) := by
  refine ⟨gfP2.IsZero_Mul_aux hneg a b, ?_⟩
  rw [sq, sq]
  exact gfP2.norm_eq_zero_iff hneg a

/-- C19 at the FourQ prime, on `3 + 5i` and `7 + 2i`. -/
theorem gfP2_no_zero_divisors_witness :
    ¬ IsSquare (-1 : ZMod fourqP) ∧
    (gfP2.IsZero (gfP2.Mul (⟨3, 5⟩ : gfP2 fourqP) ⟨7, 2⟩) = true ↔
      gfP2.IsZero (⟨3, 5⟩ : gfP2 fourqP) = true ∨ gfP2.IsZero (⟨7, 2⟩ : gfP2 fourqP) = true) ∧
    ((3 : ZMod fourqP) ^ 2 + 5 ^ 2 = 0 ↔ gfP2.IsZero (⟨3, 5⟩ : gfP2 fourqP) = true) :=
  ⟨fourqP_neg_one_not_square,
    gfP2_no_zero_divisors fourqP fourqP_neg_one_not_square ⟨3, 5⟩ ⟨7, 2⟩⟩
